import Mathlib

/-!
Verification of the lsn repository: a generational slot arena (`src/arena.rs`),
a lazily loaded filesystem-state map (`lsn-core/src/lib.rs`), the pure
projection from tree state to a display list (`lsn/src/projection.rs`), and
the UI-level commands built on them (`lsn/src/main.rs`).

The Rust code is shallowly embedded: `Vec` becomes `List`, `u64`/`usize`
become `Nat`, `HashMap<PathBuf, FsNode>` becomes an association list keyed by
`Path := List String` (one entry per key, first match wins, exactly as the
hash map behaves), fallible operations return `Option` or a success flag, and
the two external collaborators (directory listing and file-kind probing) are
explicit function parameters.  `collect_recursive`, whose Rust recursion is
bounded by the height of the (finite) tree, takes an explicit fuel that is
fixed uniformly from the state, so that equalities between projections of
states with equal key sets compare like with like.
-/

namespace Lsn

/-! ## Arena (src/src/arena.rs) -/

/-- Handle into the arena: `{index, generation}` (src/arena.rs). -/
structure Handle where
  index : Nat
  generation : Nat
deriving DecidableEq, Repr

/-- A slot of the arena: occupied with a value, or free pointing at the next
free slot, each carrying its current generation (src/arena.rs `Slot<T>`). -/
inductive Slot (T : Type) where
  | occupied (value : T) (generation : Nat)
  | free (next_free : Option Nat) (generation : Nat)
deriving DecidableEq, Repr

/-- The arena: slot vector, head of the free list, live count
(src/arena.rs `Arena<T>`). -/
structure Arena (T : Type) where
  data : List (Slot T)
  free_slot : Option Nat
  count : Nat
deriving DecidableEq, Repr

namespace Arena

/-- `Arena::new`. -/
def new (T : Type) : Arena T := ⟨[], none, 0⟩

/-- `Arena::get`: the handle is valid iff its index is in bounds, the slot is
occupied and the stored generation equals the handle's generation. -/
def get (a : Arena T) (h : Handle) : Option T :=
  match a.data[h.index]? with
  | some (Slot.occupied v g) => if g = h.generation then some v else none
  | _ => none

/-- `Arena::get_mut`, observed as the value it would hand out (the mutable
reference's target); the lookup logic is identical to `get`. -/
def get_mut (a : Arena T) (h : Handle) : Option T :=
  match a.data[h.index]? with
  | some (Slot.occupied v g) => if g = h.generation then some v else none
  | _ => none

/-- `Arena::insert`.  Returns `none` exactly where the Rust code would panic
("Corrupt free list" when the free head is not a free slot, or the index
being out of bounds); on well-formed arenas this never happens. -/
def insert (a : Arena T) (v : T) : Option (Arena T × Handle) :=
  match a.free_slot with
  | some idx =>
    match a.data[idx]? with
    | some (Slot.free nf g) =>
      some (⟨a.data.set idx (Slot.occupied v g), nf, a.count + 1⟩, ⟨idx, g⟩)
    | _ => none
  | none =>
    some (⟨a.data ++ [Slot.occupied v 0], none, a.count + 1⟩, ⟨a.data.length, 0⟩)

/-- `Arena::remove`: bails out with `None` when `get` fails, otherwise frees
the slot, bumping its generation to `handle.generation + 1` and pushing it on
the free list. -/
def remove (a : Arena T) (h : Handle) : Arena T × Option T :=
  match a.get h with
  | none => (a, none)
  | some v =>
    (⟨a.data.set h.index (Slot.free a.free_slot (h.generation + 1)),
      some h.index, a.count - 1⟩, some v)

/-- Writing through `get_mut` as in the property test's `GetMut` action:
update the value in place when the handle is valid, otherwise do nothing. -/
def write (a : Arena T) (h : Handle) (v : T) : Arena T :=
  match a.data[h.index]? with
  | some (Slot.occupied _ g) =>
    if g = h.generation then ⟨a.data.set h.index (Slot.occupied v g), a.free_slot, a.count⟩
    else a
  | _ => a

end Arena

/-- One mutating arena operation, as exercised by the property test
`test_arena_matches_hashmap` (inserts, removes on arbitrary handles, writes
through `get_mut`). -/
inductive Op (T : Type) where
  | insert (v : T)
  | remove (h : Handle)
  | write (h : Handle) (v : T)
deriving DecidableEq, Repr

/-- Apply one operation; `none` only where the Rust code would panic. -/
def applyOp (a : Arena T) : Op T → Option (Arena T)
  | Op.insert v => (a.insert v).map Prod.fst
  | Op.remove h => some (a.remove h).1
  | Op.write h v => some (a.write h v)

/-- Run a list of operations. -/
def run (a : Arena T) : List (Op T) → Option (Arena T)
  | [] => some a
  | op :: ops => (applyOp a op).bind (fun a' => run a' ops)

/-- Generation currently stored at slot `i`, if the slot exists. -/
def genAt (a : Arena T) (i : Nat) : Option Nat :=
  match a.data[i]? with
  | some (Slot.occupied _ g) => some g
  | some (Slot.free _ g) => some g
  | none => none

/-- The reference model of the property test: a plain map keyed by `Handle`. -/
def Model (T : Type) : Type := Handle → Option T

/-- One step of the coupled execution: the arena performs the operation and
the reference map is updated with the very handle the arena produced, exactly
as `test_arena_matches_hashmap` maintains its `HashMap`. -/
def stepPair (a : Arena T) (m : Model T) : Op T → Option (Arena T × Model T)
  | Op.insert v =>
    (a.insert v).map (fun p =>
      (p.1, fun h => if h = p.2 then some v else m h))
  | Op.remove h =>
    some ((a.remove h).1, fun h' => if h' = h then none else m h')
  | Op.write h v =>
    some (a.write h v, fun h' => if h' = h then (m h).map (fun _ => v) else m h')

/-- Coupled run of arena and reference map. -/
def runPair (a : Arena T) (m : Model T) : List (Op T) → Option (Arena T × Model T)
  | [] => some (a, m)
  | op :: ops => (stepPair a m op).bind (fun p => runPair p.1 p.2 ops)

/-- The free list seen as an explicit chain of indices: `p` is the head
pointer, each listed index holds a free slot whose `next_free` continues the
chain, and the chain ends with `none`. -/
def Chain (a : Arena T) : Option Nat → List Nat → Prop
  | p, [] => p = none
  | p, i :: rest =>
    p = some i ∧ ∃ nf g, a.data[i]? = some (Slot.free nf g) ∧ Chain a nf rest

/-- Slot `i` exists and is free. -/
def IsFreeIdx (a : Arena T) (i : Nat) : Prop :=
  ∃ nf g, a.data[i]? = some (Slot.free nf g)

/-- Well-formed free list: the chain from `free_slot` enumerates every free
slot of the arena. -/
def WFArena (a : Arena T) : Prop :=
  ∃ l, Chain a a.free_slot l ∧ ∀ i, IsFreeIdx a i → i ∈ l

/-! ## Filesystem state (lsn-core/src/lib.rs) -/

/-- A filesystem path, as its list of components (`PathBuf` compares and
splits componentwise). -/
abbrev Path : Type := List String

/-- `FsNodeKind` from lsn-core: a directory holds the (sorted-on-load) list
of child paths and its open flag; files carry nothing. -/
inductive FsNodeKind where
  | directory (children : List Path) (is_open : Bool)
  | file
deriving DecidableEq, Repr

/-- `FsNode` from lsn-core. -/
structure FsNode where
  path : Path
  kind : FsNodeKind
deriving DecidableEq, Repr

/-- `StateManager` from lsn-core: the flat database of all known files,
keyed by path.  The `HashMap` keeps one entry per key; the association list
is kept in that shape by `insertNode` replacing the first matching entry. -/
structure StateManager where
  fs_nodes : List (Path × FsNode)
  root : Path
deriving DecidableEq, Repr

/-- Map entry lookup (`HashMap::get` on the first matching key). -/
def findEntry (l : List (Path × FsNode)) (p : Path) : Option (Path × FsNode) :=
  l.find? (fun e => decide (e.1 = p))

/-- `fs_nodes.get(path)` / `StateManager::get_entry`. -/
def findNode (s : StateManager) (p : Path) : Option FsNode :=
  (findEntry s.fs_nodes p).map (fun e => e.2)

/-- `HashMap::insert`: replace the entry for the key if present, otherwise
add it. -/
def insertNode : List (Path × FsNode) → Path → FsNode → List (Path × FsNode)
  | [], k, v => [(k, v)]
  | e :: rest, k, v =>
    if e.1 = k then (k, v) :: rest else e :: insertNode rest k v

/-- The external `path.is_dir()` probe (spec section 6), as a parameter. -/
abbrev Probe : Type := Path → Bool

/-- The external directory-listing collaborator (spec section 6):
`fs::read_dir` yielding the child paths, `none` for an I/O error. -/
abbrev Listing : Type := Path → Option (List Path)

/-- The fresh node `add_path` writes for `p`: kind from the probe, empty
children, closed. -/
def freshNode (probe : Probe) (p : Path) : FsNode :=
  ⟨p, if probe p then FsNodeKind.directory [] false else FsNodeKind.file⟩

/-- `StateManager::add_path`: probe the path's kind and insert a fresh node
under it, overwriting any previous node. -/
def add_path (probe : Probe) (s : StateManager) (p : Path) : StateManager :=
  ⟨insertNode s.fs_nodes p (freshNode probe p), s.root⟩

/-- `StateManager::new`: empty database, then `add_path(root)`. -/
def SMnew (probe : Probe) (root : Path) : StateManager :=
  add_path probe ⟨[], root⟩ root

/-- Componentwise path comparison, mirroring `PathBuf::cmp`. -/
def cmpPath : Path → Path → Ordering
  | [], [] => Ordering.eq
  | [], _ :: _ => Ordering.lt
  | _ :: _, [] => Ordering.gt
  | x :: xs, y :: ys =>
    match compare x y with
    | Ordering.eq => cmpPath xs ys
    | o => o

/-- Stable insertion used by the model of Rust's stable `sort`/`sort_by`:
place `a` before the first element it is `le` to. -/
def orderedInsert (le : α → α → Bool) (a : α) : List α → List α
  | [] => [a]
  | b :: l => if le a b then a :: b :: l else b :: orderedInsert le a l

/-- Stable sort (insertion sort); Rust's `sort_by` is stable, so for a total
comparator it produces exactly this list. -/
def sortBy (le : α → α → Bool) : List α → List α
  | [] => []
  | a :: l => orderedInsert le a (sortBy le l)

/-- `le` for plain `PathBuf` ordering (used by `child_paths.sort()`). -/
def pathLe (a b : Path) : Bool := cmpPath a b ≠ Ordering.gt

/-- Write a directory entry's children list (the tail of `load_dir`);
touches nothing if the path is absent or a file. -/
def setChildrenEntries : List (Path × FsNode) → Path → List Path → List (Path × FsNode)
  | [], _, _ => []
  | e :: rest, p, l =>
    if e.1 = p then
      (match e.2.kind with
       | FsNodeKind.directory _ op => (e.1, ⟨e.2.path, FsNodeKind.directory l op⟩)
       | FsNodeKind.file => e) :: rest
    else e :: setChildrenEntries rest p l

/-- See `setChildrenEntries`. -/
def setChildren (s : StateManager) (p : Path) (l : List Path) : StateManager :=
  ⟨setChildrenEntries s.fs_nodes p l, s.root⟩

/-- `StateManager::load_dir`: list the directory (early `Err` return on
failure, with no mutation), `add_path` each child, sort the child paths, and
write them into the parent entry.  The boolean is the `io::Result`. -/
def load_dir (listing : Listing) (probe : Probe) (s : StateManager) (p : Path) :
    StateManager × Bool :=
  match listing p with
  | none => (s, false)
  | some l =>
    (setChildren (l.foldl (fun acc c => add_path probe acc c) s) p (sortBy pathLe l),
     true)

/-- Flip a directory entry's `is_open` (`StateManager::toggle_open`). -/
def toggleEntries : List (Path × FsNode) → Path → List (Path × FsNode)
  | [], _ => []
  | e :: rest, p =>
    if e.1 = p then
      (match e.2.kind with
       | FsNodeKind.directory ch op => (e.1, ⟨e.2.path, FsNodeKind.directory ch (!op)⟩)
       | FsNodeKind.file => e) :: rest
    else e :: toggleEntries rest p

/-- `StateManager::toggle_open`. -/
def toggle_open (s : StateManager) (p : Path) : StateManager :=
  ⟨toggleEntries s.fs_nodes p, s.root⟩

/-- Set a directory entry's `is_open` (`StateManager::set_open`). -/
def setOpenEntries : List (Path × FsNode) → Path → Bool → List (Path × FsNode)
  | [], _, _ => []
  | e :: rest, p, b =>
    if e.1 = p then
      (match e.2.kind with
       | FsNodeKind.directory ch _ => (e.1, ⟨e.2.path, FsNodeKind.directory ch b⟩)
       | FsNodeKind.file => e) :: rest
    else e :: setOpenEntries rest p b

/-- `StateManager::set_open`. -/
def set_open (s : StateManager) (p : Path) (b : Bool) : StateManager :=
  ⟨setOpenEntries s.fs_nodes p b, s.root⟩

/-! ## Projection (lsn/src/projection.rs, lsn-ui/src/lib.rs, lsn-ui/src/app.rs) -/

/-- The three independent filter toggles (lsn-ui `Filter`). -/
structure Filter where
  directories : Bool
  files : Bool
  dotfiles : Bool
deriving DecidableEq, Repr

/-- Sort mode (lsn-ui `Sort`). -/
inductive SortMode where
  | directory
  | file
  | alphabetical
deriving DecidableEq, Repr

/-- Kind snapshot carried by a view row (lsn-ui `ViewItemKind`). -/
inductive ViewItemKind where
  | directory (is_open : Bool)
  | file
deriving DecidableEq, Repr

/-- One row of projected output (lsn-ui `ViewItem`). -/
structure ViewItem where
  name : String
  path : Path
  kind : ViewItemKind
  depth : Nat
deriving DecidableEq, Repr

/-- `path.file_name().unwrap_or_default()`: the last component, or "". -/
def leafName (p : Path) : String := p.getLast?.getD ""

/-- The `ViewItem` pushed by `process_current_entry` for a node. -/
def mkItem (n : FsNode) (depth : Nat) : ViewItem :=
  ⟨leafName n.path, n.path,
   (match n.kind with
    | FsNodeKind.directory _ op => ViewItemKind.directory op
    | FsNodeKind.file => ViewItemKind.file), depth⟩

/-- Whether a node is a directory (`matches!(kind, Directory { .. })`). -/
def isDirNode (n : FsNode) : Bool :=
  match n.kind with
  | FsNodeKind.directory _ _ => true
  | FsNodeKind.file => false

/-- `bool::cmp`: `false < true`. -/
def cmpBool : Bool → Bool → Ordering
  | false, true => Ordering.lt
  | true, false => Ordering.gt
  | _, _ => Ordering.eq

/-- The comparator of `sort_children`: looks both children up and compares
their stored nodes.  Where the Rust code would panic (`expect`, when a child
is missing from the map) we return `eq`; all theorems using the comparator
assume the children are registered, which keeps that branch unreachable. -/
def cmpChild (s : StateManager) (srt : SortMode) (a b : Path) : Ordering :=
  match findNode s a, findNode s b with
  | some na, some nb =>
    (match srt with
     | SortMode.directory =>
       (cmpBool (isDirNode nb) (isDirNode na)).then (cmpPath na.path nb.path)
     | SortMode.file =>
       (cmpBool (isDirNode na) (isDirNode nb)).then (cmpPath na.path nb.path)
     | SortMode.alphabetical => cmpPath na.path nb.path)
  | _, _ => Ordering.eq

/-- `le` induced by `cmpChild` (Rust `sort_by` keeps `a` before `b` unless
the comparator says `Greater`). -/
def childLe (s : StateManager) (srt : SortMode) (a b : Path) : Bool :=
  cmpChild s srt a b ≠ Ordering.gt

/-- `sort_children`: a freshly sorted copy of the children, never written
back to the state. -/
def sortChildren (s : StateManager) (ch : List Path) (srt : SortMode) : List Path :=
  sortBy (childLe s srt) ch

/-- `should_display` from lsn/src/projection.rs: unregistered paths are
hidden; the dotfile filter keys on the leaf of the looked-up path; the file
filter hides files; the directory filter hides only closed directories. -/
def should_display (p : Path) (s : StateManager) (f : Filter) : Bool :=
  match findNode s p with
  | none => false
  | some n =>
    if f.dotfiles ∧ (leafName p).startsWith "." then false
    else
      match n.kind with
      | FsNodeKind.file => if f.files then false else true
      | FsNodeKind.directory _ op =>
        if op = false ∧ f.directories then false else true

/-- Concatenation of the images of a list, in order (the `for` loop of
`collect_recursive` pushing each recursive call's items). -/
def concatMap (f : α → List β) : List α → List β
  | [] => []
  | a :: l => f a ++ concatMap f l

/-- `collect_recursive`: emit the current node, and when it is an open
directory recurse into the sorted children that pass the filter.  `fuel`
bounds the recursion depth; the Rust recursion is over a finite tree, and
every theorem compares runs at equal fuel. -/
def collectRec (s : StateManager) (f : Filter) (srt : SortMode) :
    Nat → Path → Nat → List ViewItem
  | 0, _, _ => []
  | Nat.succ fuel, p, depth =>
    match findNode s p with
    | none => []
    | some n =>
      match n.kind with
      | FsNodeKind.directory ch true =>
        mkItem n depth ::
          concatMap
            (fun c =>
              if should_display c s f then collectRec s f srt fuel c (depth + 1)
              else [])
            (sortChildren s ch srt)
      | _ => [mkItem n depth]

/-- Uniform fuel for a state: more than the length of any stored key, which
bounds the depth of any descent through registered strictly-extending
children. -/
def projFuel (s : StateManager) : Nat :=
  (s.fs_nodes.foldr (fun e m => max e.1.length m) 0) + 2

/-- `state_to_view`: the full projection from the root. -/
def stateToView (s : StateManager) (f : Filter) (srt : SortMode) : List ViewItem :=
  collectRec s f srt (projFuel s) s.root 0

/-- The sequence of displayed paths of a projection. -/
def viewPaths (s : StateManager) (f : Filter) (srt : SortMode) : List Path :=
  (stateToView s f srt).map (fun it => it.path)

/-! ## UI commands (lsn/src/main.rs) -/

/-- `Path::parent()`: drop the last component; `None` on the empty path. -/
def pathParent (p : Path) : Option Path :=
  match p with
  | [] => none
  | _ :: _ => some p.dropLast

/-- The state mutation of `toggle_folder` (lsn/src/main.rs) once the
selected view item's path is known: for a registered directory, first load
it if it is closed with no children, then toggle it open/closed. -/
def toggleFolderPath (listing : Listing) (probe : Probe) (s : StateManager)
    (p : Path) : StateManager :=
  match findNode s p with
  | some n =>
    match n.kind with
    | FsNodeKind.directory ch op =>
      let s₁ := if op = false ∧ ch = [] then (load_dir listing probe s p).1 else s
      toggle_open s₁ p
    | FsNodeKind.file => s
  | none => s

/-- `toggle_folder` proper: resolve the selected index through the view
cache, then act on that item's path. -/
def toggle_folder (listing : Listing) (probe : Probe) (s : StateManager)
    (view : List ViewItem) (sel : Option Nat) : StateManager :=
  match sel.bind (fun i => view[i]?) with
  | some item => toggleFolderPath listing probe s item.path
  | none => s

/-- `close_nearest` (lsn/src/main.rs): close the selected open directory in
place, otherwise look the selected item's parent up in the current view
cache and, when found there, close it and move the selection to its index. -/
def close_nearest (s : StateManager) (view : List ViewItem) (sel : Option Nat) :
    StateManager × Option Nat :=
  match sel with
  | none => (s, none)
  | some i =>
    match view[i]? with
    | none => (s, some i)
    | some item =>
      match item.kind with
      | ViewItemKind.directory true => (set_open s item.path false, some i)
      | _ =>
        match pathParent item.path with
        | none => (s, some i)
        | some pp =>
          match view.findIdx? (fun it => decide (it.path = pp)) with
          | none => (s, some i)
          | some idx => (set_open s pp false, some idx)

/-- The startup sequence of `main`: build the state on the working
directory, load it, and force it open. -/
def initState (listing : Listing) (probe : Probe) (root : Path) : StateManager :=
  set_open (load_dir listing probe (SMnew probe root) root).1 root true

/-- States reachable from startup through the state-mutating UI commands:
`toggle_folder` on any resolved path, and the `set_open(_, false)` that both
branches of `close_nearest` perform.  (Navigation, filter and sort commands
do not touch the state.) -/
inductive ReachUI (listing : Listing) (probe : Probe) (root : Path) : StateManager → Prop
  | init : ReachUI listing probe root (initState listing probe root)
  | toggle (s : StateManager) (p : Path) : ReachUI listing probe root s →
      ReachUI listing probe root (toggleFolderPath listing probe s p)
  | closeStep (s : StateManager) (p : Path) : ReachUI listing probe root s →
      ReachUI listing probe root (set_open s p false)

/-- "The children of `p` have been loaded": they are exactly the sorted
result of the (fixed) listing collaborator, an empty list when listing
fails.  This is the observable content of the spec's `children_loaded` flag,
which the current code does not store. -/
def LoadedChildren (listing : Listing) (p : Path) (ch : List Path) : Prop :=
  ch = sortBy pathLe ((listing p).getD [])

/-- Invariant tying open state to loading: every open directory has loaded
children, and any directory with a nonempty child list got it from a load. -/
def OpenLoadedInv (listing : Listing) (s : StateManager) : Prop :=
  ∀ p n ch op, findNode s p = some n → n.kind = FsNodeKind.directory ch op →
    (op = true → LoadedChildren listing p ch) ∧
    (ch ≠ [] → LoadedChildren listing p ch)

/-! ## Path prefix order and tree states -/

/-- `d` is an ancestor-or-self of `q` componentwise. -/
def under (d q : Path) : Bool := decide (q.take d.length = d)

/-- `d` is a strict ancestor of `q`. -/
def properUnder (d q : Path) : Bool :=
  decide (d.length < q.length) && under d q

/-- Entry-local well-formedness of a tree state: the stored node carries its
key as `path`, its children extend the key by exactly one component, and the
children list has no duplicates. -/
def entryOk (e : Path × FsNode) : Bool :=
  decide (e.2.path = e.1) &&
    (match e.2.kind with
     | FsNodeKind.directory ch _ =>
       ch.all (fun c => decide (c.dropLast = e.1) && decide (c ≠ [])) && decide ch.Nodup
     | FsNodeKind.file => true)

/-- A tree state: every entry is `entryOk`. -/
def TreeState (s : StateManager) : Prop :=
  ∀ e ∈ s.fs_nodes, entryOk e = true

/-- Decidable whole-state check for `TreeState`, for concrete witnesses. -/
def treeStateB (s : StateManager) : Bool := s.fs_nodes.all entryOk

/-- Paths reachable from the root through stored children lists. -/
inductive Reaches (s : StateManager) : Path → Prop
  | root : Reaches s s.root
  | child (p c : Path) (n : FsNode) (ch : List Path) (op : Bool) :
      Reaches s p → findNode s p = some n → n.kind = FsNodeKind.directory ch op →
      c ∈ ch → Reaches s c

/-- The specification's description of the unfiltered alphabetical
projection (spec sections 4.3 and 8): the pre-order traversal that emits
every node, descends only into open directories, and visits each directory's
children in ascending order of path comparison.  Stated from the spec's
words, to be compared with `collectRec`. -/
def specPreorder (s : StateManager) : Nat → Path → Nat → List ViewItem
  | 0, _, _ => []
  | Nat.succ fuel, p, depth =>
    match findNode s p with
    | none => []
    | some n =>
      match n.kind with
      | FsNodeKind.directory ch true =>
        mkItem n depth ::
          concatMap (fun c => specPreorder s fuel c (depth + 1)) (sortBy pathLe ch)
      | _ => [mkItem n depth]

/-- Node image of `toggle_open`. -/
def togNode (n : FsNode) : FsNode :=
  match n.kind with
  | FsNodeKind.directory ch op => ⟨n.path, FsNodeKind.directory ch (!op)⟩
  | FsNodeKind.file => n

/-- Node image of `set_open`. -/
def sopNode (b : Bool) (n : FsNode) : FsNode :=
  match n.kind with
  | FsNodeKind.directory ch _ => ⟨n.path, FsNodeKind.directory ch b⟩
  | FsNodeKind.file => n

/-- Node image of writing a children list. -/
def chNode (ch : List Path) (n : FsNode) : FsNode :=
  match n.kind with
  | FsNodeKind.directory _ op => ⟨n.path, FsNodeKind.directory ch op⟩
  | FsNodeKind.file => n

/-- Path component used by concrete test states. -/
def r0 : String := "r"

/-- Path component used by concrete test states. -/
def a0 : String := "a"

/-- Path component used by concrete test states. -/
def b0 : String := "b"

/-- The sequence of paths of a list of view items. -/
def itemPaths (l : List ViewItem) : List Path :=
  l.map (fun it => it.path)

/-- Spec-side reading of the dotfile filter clause: the leaf name starts
with a dot and the toggle is on. -/
def dotfileHidden (f : Filter) (c : Path) : Bool :=
  f.dotfiles && (leafName c).startsWith "."

/-- The registered node at `c` is a file. -/
def isFileAt (s : StateManager) (c : Path) : Bool :=
  match findNode s c with
  | some n =>
    match n.kind with
    | FsNodeKind.file => true
    | FsNodeKind.directory _ _ => false
  | none => false

/-- The registered node at `c` is a closed directory. -/
def isClosedDirAt (s : StateManager) (c : Path) : Bool :=
  match findNode s c with
  | some n =>
    match n.kind with
    | FsNodeKind.directory _ op => !op
    | FsNodeKind.file => false
  | none => false

/-- Decidable check that the root and every stored child are registered,
covering in particular every node reachable from the root. -/
def allRegB (s : StateManager) : Bool :=
  (findNode s s.root).isSome &&
    s.fs_nodes.all (fun e =>
      match e.2.kind with
      | FsNodeKind.directory ch _ => ch.all (fun c => (findNode s c).isSome)
      | FsNodeKind.file => true)

/-! ## Arena lemmas -/

theorem getElem?_isSome_lt {l : List α} {i : Nat} {x : α}
    (h : l[i]? = some x) : i < l.length := by
  by_contra hcon
  rw [List.getElem?_eq_none (Nat.le_of_not_lt hcon)] at h
  exact absurd h (by simp)

/-- Case analysis of a successful `insert`. -/
theorem insert_spec {a a' : Arena T} {v : T} {h' : Handle}
    (hi : a.insert v = some (a', h')) :
    (∃ idx nf g, a.free_slot = some idx ∧ a.data[idx]? = some (Slot.free nf g) ∧
      a' = ⟨a.data.set idx (Slot.occupied v g), nf, a.count + 1⟩ ∧ h' = ⟨idx, g⟩) ∨
    (a.free_slot = none ∧ a' = ⟨a.data ++ [Slot.occupied v 0], none, a.count + 1⟩ ∧
      h' = ⟨a.data.length, 0⟩) := by
  cases hfs : a.free_slot with
  | some idx =>
    left
    cases hslot : a.data[idx]? with
    | none => simp [Arena.insert, hfs, hslot] at hi
    | some sl =>
      cases sl with
      | occupied w gg => simp [Arena.insert, hfs, hslot] at hi
      | free nf gg =>
        simp only [Arena.insert, hfs, hslot, Option.some.injEq, Prod.mk.injEq] at hi
        exact ⟨idx, nf, gg, rfl, hslot, hi.1.symm, hi.2.symm⟩
  | none =>
    right
    simp only [Arena.insert, hfs, Option.some.injEq, Prod.mk.injEq] at hi
    exact ⟨rfl, hi.1.symm, hi.2.symm⟩

/-- A successful `get` pins down the slot. -/
theorem get_some_spec {a : Arena T} {h : Handle} {v : T}
    (hget : a.get h = some v) :
    a.data[h.index]? = some (Slot.occupied v h.generation) := by
  unfold Arena.get at hget
  cases hslot : a.data[h.index]? with
  | none => simp [hslot] at hget
  | some sl =>
    cases sl with
    | free nf gg => simp [hslot] at hget
    | occupied w gg =>
      simp only [hslot] at hget
      split at hget
      case isTrue hgen =>
        injection hget with hv
        subst hv
        rw [hgen]
      case isFalse hgen => exact absurd hget (by simp)

/-- A successful `remove` pins down both the old slot and the new arena. -/
theorem remove_some_spec {a a₂ : Arena T} {h : Handle} {v : T}
    (hr : a.remove h = (a₂, some v)) :
    a.data[h.index]? = some (Slot.occupied v h.generation) ∧
    a₂ = ⟨a.data.set h.index (Slot.free a.free_slot (h.generation + 1)),
      some h.index, a.count - 1⟩ := by
  unfold Arena.remove at hr
  cases hget : a.get h with
  | none => simp [hget] at hr
  | some w =>
    simp only [hget, Prod.mk.injEq, Option.some.injEq] at hr
    obtain ⟨ha, hv⟩ := hr
    subst hv
    exact ⟨get_some_spec hget, ha.symm⟩

/-- A failed `remove` leaves the arena untouched. -/
theorem remove_none_spec {a : Arena T} {h : Handle}
    (hget : a.get h = none) : a.remove h = (a, none) := by
  unfold Arena.remove
  rw [hget]

theorem genAt_le_of_insert {a a' : Arena T} {v : T} {h' : Handle}
    (hi : a.insert v = some (a', h')) (i : Nat) (g : Nat)
    (hg : genAt a i = some g) : ∃ g', genAt a' i = some g' ∧ g ≤ g' := by
  rcases insert_spec hi with ⟨idx, nf, gg, hfs, hslot, ha, hh⟩ | ⟨hfs, ha, hh⟩
  · subst ha
    by_cases hidx : i = idx
    · subst hidx
      have hlt : i < a.data.length := getElem?_isSome_lt hslot
      have hgi : genAt a i = some gg := by simp [genAt, hslot]
      rw [hgi] at hg
      injection hg with hg'
      exact ⟨gg, by simp [genAt, List.getElem?_set_self hlt], by omega⟩
    · refine ⟨g, ?_, Nat.le_refl g⟩
      simpa [genAt, List.getElem?_set_ne (fun hc => hidx hc.symm)] using hg
  · subst ha
    refine ⟨g, ?_, Nat.le_refl g⟩
    have hlt : i < a.data.length := by
      unfold genAt at hg
      cases hslot : a.data[i]? with
      | none => rw [hslot] at hg; exact absurd hg (by simp)
      | some sl => exact getElem?_isSome_lt hslot
    simpa [genAt, List.getElem?_append_left hlt] using hg

theorem genAt_le_of_remove (a : Arena T) (h : Handle) (i : Nat) (g : Nat)
    (hg : genAt a i = some g) :
    ∃ g', genAt (a.remove h).1 i = some g' ∧ g ≤ g' := by
  cases hr : a.remove h with
  | mk a₂ res =>
    cases res with
    | none =>
      cases hget : a.get h with
      | none =>
        rw [remove_none_spec hget] at hr
        injection hr with ha _
        subst ha
        exact ⟨g, hg, Nat.le_refl g⟩
      | some v =>
        unfold Arena.remove at hr
        simp [hget] at hr
    | some v =>
      obtain ⟨hslot, ha⟩ := remove_some_spec hr
      subst ha
      by_cases hidx : i = h.index
      · have hlt : h.index < a.data.length := getElem?_isSome_lt hslot
        have hgi : genAt a i = some h.generation := by simp [genAt, hidx, hslot]
        rw [hgi] at hg
        injection hg with hg'
        refine ⟨h.generation + 1, ?_, by omega⟩
        simp [genAt, hidx, List.getElem?_set_self hlt]
      · refine ⟨g, ?_, Nat.le_refl g⟩
        simpa [genAt, List.getElem?_set_ne (fun hc => hidx hc.symm)] using hg

theorem genAt_le_of_write (a : Arena T) (h : Handle) (v : T) (i : Nat) (g : Nat)
    (hg : genAt a i = some g) :
    ∃ g', genAt (a.write h v) i = some g' ∧ g ≤ g' := by
  cases hslot : a.data[h.index]? with
  | none =>
    refine ⟨g, ?_, Nat.le_refl g⟩
    simp only [Arena.write, hslot]
    exact hg
  | some sl =>
    cases sl with
    | free nf gg =>
      refine ⟨g, ?_, Nat.le_refl g⟩
      simp only [Arena.write, hslot]
      exact hg
    | occupied w gg =>
      by_cases hgen : gg = h.generation
      · by_cases hidx : i = h.index
        · have hlt : h.index < a.data.length := getElem?_isSome_lt hslot
          have hgi : genAt a i = some gg := by simp [genAt, hidx, hslot]
          rw [hgi] at hg
          injection hg with hg'
          refine ⟨gg, ?_, by omega⟩
          simp [Arena.write, hslot, hgen, genAt, hidx, List.getElem?_set_self hlt]
        · refine ⟨g, ?_, Nat.le_refl g⟩
          simp only [Arena.write, hslot, if_pos hgen, genAt,
            List.getElem?_set_ne (fun hc => hidx hc.symm)]
          exact hg
      · refine ⟨g, ?_, Nat.le_refl g⟩
        simp only [Arena.write, hslot, if_neg hgen]
        exact hg

theorem genAt_le_of_applyOp {a a' : Arena T} {op : Op T}
    (hs : applyOp a op = some a') (i : Nat) (g : Nat)
    (hg : genAt a i = some g) : ∃ g', genAt a' i = some g' ∧ g ≤ g' := by
  cases op with
  | insert v =>
    simp only [applyOp] at hs
    cases hins : a.insert v with
    | none => rw [hins] at hs; exact absurd hs (by simp)
    | some p =>
      have hs' : p.1 = a' := by rw [hins] at hs; simpa using hs
      subst hs'
      exact genAt_le_of_insert (show a.insert v = some (p.1, p.2) from hins) i g hg
  | remove h =>
    simp only [applyOp] at hs
    injection hs with hs'
    subst hs'
    exact genAt_le_of_remove a h i g hg
  | write h v =>
    simp only [applyOp] at hs
    injection hs with hs'
    subst hs'
    exact genAt_le_of_write a h v i g hg

theorem genAt_le_of_run : ∀ (ops : List (Op T)) (a b : Arena T),
    run a ops = some b → ∀ i g, genAt a i = some g →
    ∃ g', genAt b i = some g' ∧ g ≤ g'
  | [], a, b, hr, i, g, hg => by
    unfold run at hr
    injection hr with hr'
    subst hr'
    exact ⟨g, hg, Nat.le_refl g⟩
  | op :: ops, a, b, hr, i, g, hg => by
    unfold run at hr
    cases hstep : applyOp a op with
    | none => rw [hstep] at hr; exact absurd hr (by simp)
    | some a₁ =>
      rw [hstep] at hr
      simp only [Option.some_bind] at hr
      obtain ⟨g₁, hg₁, hle₁⟩ := genAt_le_of_applyOp hstep i g hg
      obtain ⟨g₂, hg₂, hle₂⟩ := genAt_le_of_run ops a₁ b hr i g₁ hg₁
      exact ⟨g₂, hg₂, Nat.le_trans hle₁ hle₂⟩

theorem remove_some_genAt {a a₂ : Arena T} {h : Handle} {v : T}
    (hr : a.remove h = (a₂, some v)) :
    genAt a₂ h.index = some (h.generation + 1) := by
  obtain ⟨hslot, ha⟩ := remove_some_spec hr
  subst ha
  have hlt : h.index < a.data.length := getElem?_isSome_lt hslot
  simp [genAt, List.getElem?_set_self hlt]

theorem get_none_of_genAt_gt {a : Arena T} {h : Handle} {g : Nat}
    (hg : genAt a h.index = some g) (hlt : h.generation < g) :
    a.get h = none := by
  cases hslot : a.data[h.index]? with
  | none => simp [Arena.get, hslot]
  | some sl =>
    cases sl with
    | free nf gg => simp [Arena.get, hslot]
    | occupied w gg =>
      have hgg : gg = g := by
        have hgi : genAt a h.index = some gg := by simp [genAt, hslot]
        rw [hgi] at hg
        injection hg
      have hne : ¬ gg = h.generation := by omega
      simp [Arena.get, hslot, hne]

/-- C1: after a successful `remove(h)`, along any further run of operations
`get(h)`, `get_mut(h)` and `remove(h)` all return `None`, and any insert that
reuses `h`'s slot index hands out a strictly larger generation than the one
`h` carries. -/
theorem arena_remove_invalidates_forever (T : Type) (ops ops' : List (Op T))
    (h : Handle) (v : T) (a₁ a₂ a₃ : Arena T)
    (h₁ : run (Arena.new T) ops = some a₁)
    (h₂ : a₁.remove h = (a₂, some v))
    (h₃ : run a₂ ops' = some a₃) :
    a₃.get h = none ∧ a₃.get_mut h = none ∧ (a₃.remove h).2 = none ∧
    ∀ v' r, a₃.insert v' = some r → r.2.index = h.index →
      h.generation < r.2.generation := by
  have hgen₂ : genAt a₂ h.index = some (h.generation + 1) := remove_some_genAt h₂
  obtain ⟨g₃, hg₃, hle₃⟩ := genAt_le_of_run ops' a₂ a₃ h₃ h.index (h.generation + 1) hgen₂
  have hget : a₃.get h = none := get_none_of_genAt_gt hg₃ (by omega)
  refine ⟨hget, hget, ?_, ?_⟩
  · rw [remove_none_spec hget]
  · intro v' r hins hidx
    rcases r with ⟨a₄, h₄⟩
    rcases insert_spec hins with ⟨idx, nf, gg, hfs, hslot, ha, hh⟩ | ⟨hfs, ha, hh⟩
    · subst hh
      simp only at hidx
      subst hidx
      have : genAt a₃ h.index = some gg := by simp [genAt, hslot]
      rw [this] at hg₃
      injection hg₃ with hg₃'
      simp only
      omega
    · subst hh
      simp only at hidx
      have hlt : h.index < a₃.data.length := by
        unfold genAt at hg₃
        cases hslot : a₃.data[h.index]? with
        | none => rw [hslot] at hg₃; exact absurd hg₃ (by simp)
        | some sl => exact getElem?_isSome_lt hslot
      omega

/-- Witness for C1 at a concrete run: insert 10, remove its handle, let the
slot be reused by inserting 20; the stale handle reads `none`. -/
theorem arena_remove_invalidates_forever_witness :
    run (Arena.new Nat) [Op.insert 10] = some ⟨[Slot.occupied 10 0], none, 1⟩ ∧
    (Arena.remove ⟨[Slot.occupied 10 0], none, 1⟩ ⟨0, 0⟩ : Arena Nat × Option Nat) =
      (⟨[Slot.free none 1], some 0, 0⟩, some 10) ∧
    run (⟨[Slot.free none 1], some 0, 0⟩ : Arena Nat) [Op.insert 20] =
      some ⟨[Slot.occupied 20 1], none, 1⟩ ∧
    (⟨[Slot.occupied 20 1], none, 1⟩ : Arena Nat).get ⟨0, 0⟩ = none :=
  ⟨rfl, rfl, rfl,
    (arena_remove_invalidates_forever Nat [Op.insert 10] [Op.insert 20]
      ⟨0, 0⟩ 10 ⟨[Slot.occupied 10 0], none, 1⟩ ⟨[Slot.free none 1], some 0, 0⟩
      ⟨[Slot.occupied 20 1], none, 1⟩ rfl rfl rfl).1⟩

/-! ## Free-list well-formedness and the map refinement (C2) -/

theorem get_congr {a b : Arena T} (h : Handle)
    (he : a.data[h.index]? = b.data[h.index]?) : a.get h = b.get h := by
  unfold Arena.get
  rw [he]

theorem chain_det : ∀ (l₁ : List Nat) (p : Option Nat) (l₂ : List Nat),
    Chain a p l₁ → Chain a p l₂ → l₁ = l₂
  | [], p, [], _, _ => rfl
  | [], p, j :: r₂, h₁, h₂ => by
    simp only [Chain] at h₁ h₂
    rw [h₁] at h₂
    exact absurd h₂.1 (by simp)
  | i :: r₁, p, [], h₁, h₂ => by
    simp only [Chain] at h₁ h₂
    rw [h₂] at h₁
    exact absurd h₁.1 (by simp)
  | i :: r₁, p, j :: r₂, h₁, h₂ => by
    simp only [Chain] at h₁ h₂
    obtain ⟨hp₁, nf₁, g₁, hs₁, hc₁⟩ := h₁
    obtain ⟨hp₂, nf₂, g₂, hs₂, hc₂⟩ := h₂
    rw [hp₁] at hp₂
    injection hp₂ with hij
    subst hij
    rw [hs₁] at hs₂
    injection hs₂ with hs₂'
    injection hs₂' with hnf hg
    subst hnf
    rw [chain_det r₁ nf₁ r₂ hc₁ hc₂]

theorem chain_mem_free : ∀ (l : List Nat) (p : Option Nat) (i : Nat),
    Chain a p l → i ∈ l → IsFreeIdx a i
  | [], p, i, _, hm => absurd hm (by simp)
  | j :: rest, p, i, hc, hm => by
    simp only [Chain] at hc
    obtain ⟨hp, nf, g, hs, hc'⟩ := hc
    rcases List.mem_cons.mp hm with hij | hm'
    · subst hij
      exact ⟨nf, g, hs⟩
    · exact chain_mem_free rest nf i hc' hm'

theorem chain_suffix : ∀ (l : List Nat) (p : Option Nat) (i : Nat),
    Chain a p l → i ∈ l →
    ∃ nf g rest, a.data[i]? = some (Slot.free nf g) ∧ Chain a nf rest ∧
      rest.length < l.length
  | [], p, i, _, hm => absurd hm (by simp)
  | j :: rest, p, i, hc, hm => by
    simp only [Chain] at hc
    obtain ⟨hp, nf, g, hs, hc'⟩ := hc
    rcases List.mem_cons.mp hm with hij | hm'
    · subst hij
      exact ⟨nf, g, rest, hs, hc', by simp⟩
    · obtain ⟨nf', g', rest', hs', hc'', hlen⟩ := chain_suffix rest nf i hc' hm'
      exact ⟨nf', g', rest', hs', hc'', by simp; omega⟩

theorem chain_head_not_tail {a : Arena T} {i : Nat} {rest : List Nat}
    (hc : Chain a (some i) (i :: rest)) : i ∉ rest := by
  intro hmem
  have hc' := hc
  simp only [Chain] at hc'
  obtain ⟨_, nf, g, hs, hrest⟩ := hc'
  obtain ⟨nf', g', rest', hs', hc'', hlen⟩ := chain_suffix rest nf i hrest hmem
  rw [hs] at hs'
  injection hs' with hs''
  injection hs'' with hnf hg
  subst hnf
  have heq := chain_det rest' nf rest hc'' hrest
  rw [heq] at hlen
  omega

theorem chain_congr : ∀ (l : List Nat) (p : Option Nat) {b : Arena T},
    Chain a p l → (∀ k ∈ l, b.data[k]? = a.data[k]?) → Chain b p l
  | [], p, b, hc, _ => hc
  | j :: rest, p, b, hc, hag => by
    simp only [Chain] at hc ⊢
    obtain ⟨hp, nf, g, hs, hc'⟩ := hc
    refine ⟨hp, nf, g, ?_, ?_⟩
    · rw [hag j (by simp), hs]
    · exact chain_congr rest nf hc' (fun k hk => hag k (by simp [hk]))

theorem wfArena_new (T : Type) : WFArena (Arena.new T) := by
  refine ⟨[], by simp [Chain, Arena.new], ?_⟩
  intro i hi
  obtain ⟨nf, g, hs⟩ := hi
  simp [Arena.new] at hs

theorem insert_isSome_of_wf {a : Arena T} (hwf : WFArena a) (v : T) :
    (a.insert v).isSome := by
  obtain ⟨l, hchain, hmem⟩ := hwf
  cases hfs : a.free_slot with
  | none => simp [Arena.insert, hfs]
  | some idx =>
    rw [hfs] at hchain
    cases l with
    | nil => simp [Chain] at hchain
    | cons j rest =>
      simp only [Chain] at hchain
      obtain ⟨hp, nf, g, hs, _⟩ := hchain
      injection hp with hp'
      subst hp'
      simp [Arena.insert, hfs, hs]

theorem wf_insert {a a' : Arena T} {v : T} {h' : Handle}
    (hwf : WFArena a) (hi : a.insert v = some (a', h')) : WFArena a' := by
  obtain ⟨l, hchain, hmem⟩ := hwf
  rcases insert_spec hi with ⟨idx, nf, g, hfs, hslot, ha, hh⟩ | ⟨hfs, ha, hh⟩
  · rw [hfs] at hchain
    cases l with
    | nil => simp [Chain] at hchain
    | cons j rest =>
      have hj : j = idx := by
        simp only [Chain] at hchain
        injection hchain.1 with hp'
        exact hp'.symm
      subst hj
      have hnotmem : j ∉ rest := chain_head_not_tail hchain
      have hchain' : Chain a nf rest := by
        simp only [Chain] at hchain
        obtain ⟨_, nf₂, g₂, hs₂, hc₂⟩ := hchain
        rw [hslot] at hs₂
        injection hs₂ with hs₂'
        injection hs₂' with hnf hg
        rw [hnf]
        exact hc₂
      subst ha
      refine ⟨rest, ?_, ?_⟩
      · refine chain_congr rest nf hchain' ?_
        intro k hk
        have hkj : k ≠ j := fun hc => hnotmem (hc ▸ hk)
        exact List.getElem?_set_ne (fun hc => hkj hc.symm)
      · intro i hfree
        obtain ⟨nf₃, g₃, hs₃⟩ := hfree
        by_cases hij : i = j
        · subst hij
          have hlt : i < a.data.length := getElem?_isSome_lt hslot
          rw [List.getElem?_set_self hlt] at hs₃
          exact absurd hs₃ (by simp)
        · rw [List.getElem?_set_ne (fun hc => hij hc.symm)] at hs₃
          have : i ∈ j :: rest := hmem i ⟨nf₃, g₃, hs₃⟩
          rcases List.mem_cons.mp this with hc | hc
          · exact absurd hc hij
          · exact hc
  · rw [hfs] at hchain
    cases l with
    | cons j rest => simp [Chain] at hchain
    | nil =>
      subst ha
      refine ⟨[], by simp [Chain], ?_⟩
      intro i hfree
      obtain ⟨nf₃, g₃, hs₃⟩ := hfree
      by_cases hlt : i < a.data.length
      · rw [List.getElem?_append_left hlt] at hs₃
        exact absurd (hmem i ⟨nf₃, g₃, hs₃⟩) (by simp)
      · rw [List.getElem?_append_right (Nat.le_of_not_lt hlt)] at hs₃
        by_cases hi : i = a.data.length
        · subst hi
          simp at hs₃
        · have : 1 ≤ i - a.data.length := by omega
          rw [List.getElem?_eq_none (by simpa using this)] at hs₃
          exact absurd hs₃ (by simp)

theorem wf_remove {a : Arena T} (hwf : WFArena a) (h : Handle) :
    WFArena (a.remove h).1 := by
  cases hr : a.remove h with
  | mk a₂ res =>
    cases res with
    | none =>
      cases hget : a.get h with
      | none =>
        rw [remove_none_spec hget] at hr
        injection hr with ha _
        subst ha
        exact hwf
      | some v =>
        unfold Arena.remove at hr
        simp [hget] at hr
    | some v =>
      obtain ⟨hslot, ha⟩ := remove_some_spec hr
      obtain ⟨l, hchain, hmem⟩ := hwf
      subst ha
      have hlt : h.index < a.data.length := getElem?_isSome_lt hslot
      have hnotmem : h.index ∉ l := by
        intro hc
        obtain ⟨nf, g, hs⟩ := chain_mem_free l a.free_slot h.index hchain hc
        rw [hslot] at hs
        exact absurd hs (by simp)
      refine ⟨h.index :: l, ?_, ?_⟩
      · simp only [Chain]
        refine ⟨by trivial, a.free_slot, h.generation + 1, ?_, ?_⟩
        · simp [List.getElem?_set_self hlt]
        · refine chain_congr l a.free_slot hchain ?_
          intro k hk
          have hkne : k ≠ h.index := fun hc => hnotmem (hc ▸ hk)
          exact List.getElem?_set_ne (fun hc => hkne hc.symm)
      · intro i hfree
        obtain ⟨nf₃, g₃, hs₃⟩ := hfree
        by_cases hih : i = h.index
        · simp [hih]
        · rw [List.getElem?_set_ne (fun hc => hih hc.symm)] at hs₃
          exact List.mem_cons.mpr (Or.inr (hmem i ⟨nf₃, g₃, hs₃⟩))

theorem get_of_slot {a : Arena T} {h : Handle} {w : T}
    (hs : a.data[h.index]? = some (Slot.occupied w h.generation)) :
    a.get h = some w := by
  unfold Arena.get
  rw [hs]
  simp

theorem write_of_get_none {a : Arena T} {h : Handle}
    (hget : a.get h = none) : a.write h v = a := by
  unfold Arena.write
  cases hslot : a.data[h.index]? with
  | none => rfl
  | some sl =>
    cases sl with
    | free nf g => rfl
    | occupied w g =>
      by_cases hgen : g = h.generation
      · subst hgen
        rw [get_of_slot hslot] at hget
        exact absurd hget (by simp)
      · simp [hgen]

theorem write_of_get_some {a : Arena T} {h : Handle} {w : T}
    (hget : a.get h = some w) (v : T) :
    a.write h v =
      ⟨a.data.set h.index (Slot.occupied v h.generation), a.free_slot, a.count⟩ := by
  have hslot := get_some_spec hget
  unfold Arena.write
  rw [hslot]
  simp

theorem wf_write {a : Arena T} (hwf : WFArena a) (h : Handle) (v : T) :
    WFArena (a.write h v) := by
  cases hget : a.get h with
  | none => rw [write_of_get_none hget]; exact hwf
  | some w =>
    rw [write_of_get_some hget v]
    have hslot := get_some_spec hget
    have hlt : h.index < a.data.length := getElem?_isSome_lt hslot
    obtain ⟨l, hchain, hmem⟩ := hwf
    have hnotmem : h.index ∉ l := by
      intro hc
      obtain ⟨nf, g, hs⟩ := chain_mem_free l a.free_slot h.index hchain hc
      rw [hslot] at hs
      exact absurd hs (by simp)
    refine ⟨l, ?_, ?_⟩
    · refine chain_congr l a.free_slot hchain ?_
      intro k hk
      have hkne : k ≠ h.index := fun hc => hnotmem (hc ▸ hk)
      exact List.getElem?_set_ne (fun hc => hkne hc.symm)
    · intro i hfree
      obtain ⟨nf₃, g₃, hs₃⟩ := hfree
      by_cases hih : i = h.index
      · subst hih
        rw [List.getElem?_set_self hlt] at hs₃
        exact absurd hs₃ (by simp)
      · rw [List.getElem?_set_ne (fun hc => hih hc.symm)] at hs₃
        exact hmem i ⟨nf₃, g₃, hs₃⟩

theorem get_insert_self {a a' : Arena T} {v : T} {h' : Handle}
    (hi : a.insert v = some (a', h')) : a'.get h' = some v := by
  rcases insert_spec hi with ⟨idx, nf, g, hfs, hslot, ha, hh⟩ | ⟨hfs, ha, hh⟩
  · subst ha; subst hh
    have hlt : idx < a.data.length := getElem?_isSome_lt hslot
    simp [Arena.get, List.getElem?_set_self hlt]
  · subst ha; subst hh
    simp only [Arena.get]
    rw [List.getElem?_append_right (Nat.le_refl _)]
    simp

theorem get_insert_fresh {a a' : Arena T} {v : T} {h' : Handle}
    (hi : a.insert v = some (a', h')) : a.get h' = none := by
  rcases insert_spec hi with ⟨idx, nf, g, hfs, hslot, ha, hh⟩ | ⟨hfs, ha, hh⟩
  · subst hh
    simp [Arena.get, hslot]
  · subst hh
    simp only [Arena.get]
    rw [List.getElem?_eq_none (Nat.le_refl _)]

theorem get_insert_other {a a' : Arena T} {v : T} {h h' : Handle}
    (hi : a.insert v = some (a', h')) (hne : h ≠ h') : a'.get h = a.get h := by
  rcases insert_spec hi with ⟨idx, nf, g, hfs, hslot, ha, hh⟩ | ⟨hfs, ha, hh⟩
  · subst ha; subst hh
    by_cases hidx : h.index = idx
    · have hgen : ¬ g = h.generation := by
        intro hc
        apply hne
        cases h with
        | mk hi₀ hg₀ => simp_all
      have hlt : idx < a.data.length := getElem?_isSome_lt hslot
      have h1 : Arena.get ⟨a.data.set idx (Slot.occupied v g), nf, a.count + 1⟩ h = none := by
        unfold Arena.get
        simp only [hidx]
        rw [List.getElem?_set_self hlt]
        simp [hgen]
      have h2 : a.get h = none := by
        unfold Arena.get
        rw [hidx, hslot]
      rw [h1, h2]
    · exact get_congr h (List.getElem?_set_ne (fun hc => hidx hc.symm))
  · subst ha; subst hh
    by_cases hidx : h.index = a.data.length
    · have hgen : ¬ (0 : Nat) = h.generation := by
        intro hc
        apply hne
        cases h with
        | mk hi₀ hg₀ => simp_all
      have h1 : Arena.get ⟨a.data ++ [Slot.occupied v 0], none, a.count + 1⟩ h = none := by
        unfold Arena.get
        simp only [hidx]
        rw [List.getElem?_append_right (Nat.le_refl _)]
        simp [hgen]
      have h2 : a.get h = none := by
        unfold Arena.get
        rw [hidx, List.getElem?_eq_none (Nat.le_refl _)]
      rw [h1, h2]
    · by_cases hlt : h.index < a.data.length
      · exact get_congr h (List.getElem?_append_left hlt)
      · refine get_congr h ?_
        rw [List.getElem?_eq_none (Nat.le_of_not_lt hlt)]
        rw [List.getElem?_eq_none ?_]
        simp only [List.length_append, List.length_cons, List.length_nil]
        omega

theorem get_after_remove {a a₂ : Arena T} {h : Handle} {v : T}
    (hr : a.remove h = (a₂, some v)) : a₂.get h = none := by
  obtain ⟨hslot, ha⟩ := remove_some_spec hr
  subst ha
  have hlt : h.index < a.data.length := getElem?_isSome_lt hslot
  simp [Arena.get, List.getElem?_set_self hlt]

/-- One coupled step preserves the refinement invariant. -/
theorem pairInv_step (a : Arena T) (m : Model T) (op : Op T)
    (hwf : WFArena a) (hm : ∀ h, a.get h = m h) :
    ∃ r, stepPair a m op = some r ∧ WFArena r.1 ∧ ∀ h, r.1.get h = r.2 h := by
  cases op with
  | insert v =>
    cases hins : a.insert v with
    | none =>
      have := insert_isSome_of_wf hwf v
      rw [hins] at this
      exact absurd this (by simp)
    | some p =>
      cases p with
      | mk a' h' =>
        refine ⟨(a', fun h => if h = h' then some v else m h), ?_, wf_insert hwf hins, ?_⟩
        · simp [stepPair, hins]
        · intro h
          by_cases hh : h = h'
          · subst hh
            simp only [if_pos rfl]
            exact get_insert_self hins
          · simp only [if_neg hh]
            rw [get_insert_other hins hh]
            exact hm h
  | remove h =>
    refine ⟨((a.remove h).1, fun h' => if h' = h then none else m h'), rfl, ?_, ?_⟩
    · exact wf_remove hwf h
    · intro h''
      dsimp only
      cases hget : a.get h with
      | none =>
        rw [remove_none_spec hget]
        by_cases hh : h'' = h
        · rw [hh, if_pos rfl, hget]
        · simp only [if_neg hh]
          exact hm h''
      | some v =>
        cases hrm : a.remove h with
        | mk a₂ res =>
          have hres : res = some v := by
            unfold Arena.remove at hrm
            rw [hget] at hrm
            exact (congrArg Prod.snd hrm).symm
          subst hres
          obtain ⟨hslot, ha⟩ := remove_some_spec hrm
          by_cases hh : h'' = h
          · subst hh
            simp only [if_pos rfl]
            exact get_after_remove hrm
          · simp only [if_neg hh]
            subst ha
            by_cases hidx : h''.index = h.index
            · have hgen : h''.generation ≠ h.generation := by
                intro hc
                apply hh
                cases h'' with
                | mk hi₀ hg₀ =>
                  cases h with
                  | mk hi₁ hg₁ => simp_all
              have hgen' : ¬ h.generation = h''.generation := fun hc => hgen hc.symm
              have hlt : h.index < a.data.length := getElem?_isSome_lt hslot
              have hget'' : a.get h'' = none := by
                unfold Arena.get
                rw [hidx, hslot]
                simp [hgen']
              have : Arena.get
                  ⟨a.data.set h.index (Slot.free a.free_slot (h.generation + 1)),
                    some h.index, a.count - 1⟩ h'' = none := by
                unfold Arena.get
                simp only [hidx]
                rw [List.getElem?_set_self hlt]
              rw [this, ← hm h'', hget'']
            · rw [← hm h'']
              exact get_congr h'' (List.getElem?_set_ne (fun hc => hidx hc.symm))
  | write h v =>
    refine ⟨(a.write h v,
      fun h' => if h' = h then (m h).map (fun _ => v) else m h'), rfl, ?_, ?_⟩
    · exact wf_write hwf h v
    · intro h''
      dsimp only
      cases hget : a.get h with
      | none =>
        rw [write_of_get_none hget]
        by_cases hh : h'' = h
        · rw [hh, if_pos rfl, ← hm h, hget]
          rfl
        · simp only [if_neg hh]
          exact hm h''
      | some w =>
        rw [write_of_get_some hget v]
        have hslot := get_some_spec hget
        have hlt : h.index < a.data.length := getElem?_isSome_lt hslot
        by_cases hh : h'' = h
        · rw [hh, if_pos rfl, ← hm h, hget]
          unfold Arena.get
          simp [List.getElem?_set_self hlt]
        · simp only [if_neg hh]
          by_cases hidx : h''.index = h.index
          · have hgen : h''.generation ≠ h.generation := by
              intro hc
              apply hh
              cases h'' with
              | mk hi₀ hg₀ =>
                cases h with
                | mk hi₁ hg₁ => simp_all
            have hgen' : ¬ h.generation = h''.generation := fun hc => hgen hc.symm
            have hget'' : a.get h'' = none := by
              unfold Arena.get
              rw [hidx, hslot]
              simp [hgen']
            have hnew : Arena.get
                ⟨a.data.set h.index (Slot.occupied v h.generation),
                  a.free_slot, a.count⟩ h'' = none := by
              unfold Arena.get
              simp only [hidx]
              rw [List.getElem?_set_self hlt]
              simp [hgen']
            rw [hnew, ← hm h'', hget'']
          · rw [← hm h'']
            exact get_congr h'' (List.getElem?_set_ne (fun hc => hidx hc.symm))

/-- The coupled run always succeeds from an invariant state and preserves the
invariant. -/
theorem runPair_inv : ∀ (ops : List (Op T)) (a : Arena T) (m : Model T),
    WFArena a → (∀ h, a.get h = m h) →
    ∃ r, runPair a m ops = some r ∧ WFArena r.1 ∧ ∀ h, r.1.get h = r.2 h
  | [], a, m, hwf, hm => ⟨(a, m), rfl, hwf, hm⟩
  | op :: ops, a, m, hwf, hm => by
    obtain ⟨r₁, hstep, hwf₁, hm₁⟩ := pairInv_step a m op hwf hm
    obtain ⟨r₂, hrun, hwf₂, hm₂⟩ := runPair_inv ops r₁.1 r₁.2 hwf₁ hm₁
    refine ⟨r₂, ?_, hwf₂, hm₂⟩
    unfold runPair
    rw [hstep]
    simpa using hrun

theorem get_new_none (T : Type) (h : Handle) : (Arena.new T).get h = none := by
  simp [Arena.get, Arena.new]

/-- C2: along every operation sequence the arena evolves in lock-step with a
plain associative map keyed by handles, never panics, answers every `get`
exactly as the map does, always accepts an insert, hands out handles that are
fresh among all live handles and immediately readable, and turns a second
`remove` of a dead handle into a pure no-op. -/
theorem arena_matches_map_model (T : Type) (ops : List (Op T)) :
    ∃ r, runPair (Arena.new T) (fun _ => none) ops = some r ∧
      (∀ h, r.1.get h = r.2 h) ∧
      (∀ v, (r.1.insert v).isSome) ∧
      (∀ v p, r.1.insert v = some p → r.1.get p.2 = none ∧ p.1.get p.2 = some v) ∧
      (∀ h v a₂, r.1.remove h = (a₂, some v) → a₂.remove h = (a₂, none)) := by
  obtain ⟨r, hrun, hwf, hm⟩ :=
    runPair_inv ops (Arena.new T) (fun _ => none) (wfArena_new T) (get_new_none T)
  refine ⟨r, hrun, hm, fun v => insert_isSome_of_wf hwf v, ?_, ?_⟩
  · intro v p hins
    cases p with
    | mk a' h' => exact ⟨get_insert_fresh hins, get_insert_self hins⟩
  · intro h v a₂ hrm
    exact remove_none_spec (get_after_remove hrm)

/-! ## State-map lemmas (lsn-core) -/

theorem findEntry_cons (e : Path × FsNode) (l : List (Path × FsNode)) (p : Path) :
    findEntry (e :: l) p = if e.1 = p then some e else findEntry l p := by
  simp only [findEntry, List.find?]
  by_cases h : e.1 = p
  · simp [h]
  · simp [h]

theorem findEntry_insertNode_self : ∀ (l : List (Path × FsNode)) (k : Path) (v : FsNode),
    findEntry (insertNode l k v) k = some (k, v)
  | [], k, v => by simp [insertNode, findEntry_cons]
  | e :: rest, k, v => by
    by_cases h : e.1 = k
    · simp [insertNode, h, findEntry_cons]
    · simp [insertNode, h, findEntry_cons, findEntry_insertNode_self rest k v]

theorem findEntry_insertNode_other {c k : Path} (hne : c ≠ k) :
    ∀ (l : List (Path × FsNode)) (v : FsNode),
    findEntry (insertNode l k v) c = findEntry l c
  | [], v => by
    have hkc : ¬ k = c := fun hc => hne hc.symm
    simp [insertNode, findEntry_cons, findEntry, hkc]
  | e :: rest, v => by
    by_cases h : e.1 = k
    · have hkc : ¬ k = c := fun hc => hne hc.symm
      have hec : ¬ e.1 = c := fun hc => hne (hc ▸ h)
      simp [insertNode, h, findEntry_cons, hkc, hec]
    · simp [insertNode, h, findEntry_cons, findEntry_insertNode_other hne rest v]

theorem insertNode_found : ∀ (l : List (Path × FsNode)) {k : Path} {v : FsNode},
    findEntry l k = some (k, v) → insertNode l k v = l
  | [], k, v, h => by simp [findEntry] at h
  | e :: rest, k, v, h => by
    rw [findEntry_cons] at h
    by_cases he : e.1 = k
    · rw [if_pos he] at h
      injection h with h'
      simp [insertNode, he, h']
    · rw [if_neg he] at h
      simp [insertNode, he, insertNode_found rest h]

theorem foldl_add_path_root (probe : Probe) : ∀ (l : List Path) (s : StateManager),
    (l.foldl (fun acc c => add_path probe acc c) s).root = s.root
  | [], s => rfl
  | x :: rest, s => by
    simp only [List.foldl]
    rw [foldl_add_path_root probe rest]
    rfl

theorem findEntry_add_path_self (probe : Probe) (s : StateManager) (p : Path) :
    findEntry (add_path probe s p).fs_nodes p = some (p, freshNode probe p) :=
  findEntry_insertNode_self s.fs_nodes p (freshNode probe p)

theorem findEntry_add_path_other (probe : Probe) {c p : Path} (hne : c ≠ p)
    (s : StateManager) :
    findEntry (add_path probe s p).fs_nodes c = findEntry s.fs_nodes c :=
  findEntry_insertNode_other hne s.fs_nodes (freshNode probe p)

theorem foldl_preserves_fresh (probe : Probe) : ∀ (l : List Path) (s : StateManager)
    (c : Path), findEntry s.fs_nodes c = some (c, freshNode probe c) →
    findEntry ((l.foldl (fun acc x => add_path probe acc x) s).fs_nodes) c =
      some (c, freshNode probe c)
  | [], s, c, h => h
  | x :: rest, s, c, h => by
    simp only [List.foldl]
    apply foldl_preserves_fresh probe rest
    by_cases hxc : c = x
    · subst hxc
      exact findEntry_add_path_self probe s c
    · rw [findEntry_add_path_other probe hxc]
      exact h

theorem findEntry_foldl_fresh (probe : Probe) : ∀ (l : List Path) (s : StateManager)
    (c : Path), c ∈ l →
    findEntry ((l.foldl (fun acc x => add_path probe acc x) s).fs_nodes) c =
      some (c, freshNode probe c)
  | [], s, c, h => absurd h (by simp)
  | x :: rest, s, c, h => by
    simp only [List.foldl]
    by_cases hc : c ∈ rest
    · exact findEntry_foldl_fresh probe rest _ c hc
    · have hcx : c = x := by
        rcases List.mem_cons.mp h with h' | h'
        · exact h'
        · exact absurd h' hc
      subst hcx
      exact foldl_preserves_fresh probe rest _ c (findEntry_add_path_self probe s c)

theorem findEntry_foldl_other (probe : Probe) : ∀ (l : List Path) (s : StateManager)
    (c : Path), c ∉ l →
    findEntry ((l.foldl (fun acc x => add_path probe acc x) s).fs_nodes) c =
      findEntry s.fs_nodes c
  | [], s, c, _ => rfl
  | x :: rest, s, c, h => by
    simp only [List.foldl]
    rw [findEntry_foldl_other probe rest _ c (fun hc => h (List.mem_cons.mpr (Or.inr hc)))]
    exact findEntry_add_path_other probe (fun hc => h (by simp [hc])) s

theorem foldl_add_path_fixed (probe : Probe) : ∀ (l : List Path) (s : StateManager),
    (∀ c ∈ l, findEntry s.fs_nodes c = some (c, freshNode probe c)) →
    l.foldl (fun acc x => add_path probe acc x) s = s
  | [], s, _ => rfl
  | x :: rest, s, h => by
    simp only [List.foldl]
    have hx : add_path probe s x = s := by
      have hfound := insertNode_found s.fs_nodes (h x (by simp))
      cases s with
      | mk ns rt =>
        simp only [add_path]
        rw [hfound]
    rw [hx]
    exact foldl_add_path_fixed probe rest s (fun c hc => h c (by simp [hc]))

theorem findEntry_setChildren_self : ∀ (l : List (Path × FsNode)) (p : Path)
    (ch : List Path),
    findEntry (setChildrenEntries l p ch) p =
      (findEntry l p).map (fun e => (e.1, chNode ch e.2))
  | [], p, ch => rfl
  | e :: rest, p, ch => by
    by_cases h : e.1 = p
    · cases e with
      | mk k n =>
        simp only at h
        subst h
        cases n with
        | mk np nk =>
          cases nk with
          | directory c o =>
            simp [setChildrenEntries, findEntry_cons, chNode]
          | file =>
            simp [setChildrenEntries, findEntry_cons, chNode]
    · simp [setChildrenEntries, h, findEntry_cons, findEntry_setChildren_self rest p ch]

theorem findEntry_setChildren_other {c p : Path} (hne : c ≠ p) :
    ∀ (l : List (Path × FsNode)) (ch : List Path),
    findEntry (setChildrenEntries l p ch) c = findEntry l c
  | [], ch => rfl
  | e :: rest, ch => by
    by_cases h : e.1 = p
    · cases e with
      | mk k n =>
        simp only at h
        subst h
        have hkc : ¬ k = c := fun hc => hne hc.symm
        cases n with
        | mk np nk =>
          cases nk with
          | directory cs o =>
            simp [setChildrenEntries, findEntry_cons, hkc]
          | file =>
            simp [setChildrenEntries, findEntry_cons, hkc]
    · simp [setChildrenEntries, h, findEntry_cons,
        findEntry_setChildren_other hne rest ch]

theorem setChildrenEntries_idem : ∀ (l : List (Path × FsNode)) (p : Path)
    (ch : List Path),
    setChildrenEntries (setChildrenEntries l p ch) p ch = setChildrenEntries l p ch
  | [], p, ch => rfl
  | e :: rest, p, ch => by
    by_cases h : e.1 = p
    · cases e with
      | mk k n =>
        simp only at h
        subst h
        cases n with
        | mk np nk =>
          cases nk with
          | directory c o => simp [setChildrenEntries]
          | file => simp [setChildrenEntries]
    · simp [setChildrenEntries, h, setChildrenEntries_idem rest p ch]

theorem findEntry_toggleEntries_self : ∀ (l : List (Path × FsNode)) (p : Path),
    findEntry (toggleEntries l p) p = (findEntry l p).map (fun e => (e.1, togNode e.2))
  | [], p => rfl
  | e :: rest, p => by
    by_cases h : e.1 = p
    · cases e with
      | mk k n =>
        simp only at h
        subst h
        cases n with
        | mk np nk =>
          cases nk with
          | directory c o => simp [toggleEntries, findEntry_cons, togNode]
          | file => simp [toggleEntries, findEntry_cons, togNode]
    · simp [toggleEntries, h, findEntry_cons, findEntry_toggleEntries_self rest p]

theorem findEntry_toggleEntries_other {c p : Path} (hne : c ≠ p) :
    ∀ (l : List (Path × FsNode)),
    findEntry (toggleEntries l p) c = findEntry l c
  | [] => rfl
  | e :: rest => by
    by_cases h : e.1 = p
    · cases e with
      | mk k n =>
        simp only at h
        subst h
        have hkc : ¬ k = c := fun hc => hne hc.symm
        cases n with
        | mk np nk =>
          cases nk with
          | directory cs o => simp [toggleEntries, findEntry_cons, hkc]
          | file => simp [toggleEntries, findEntry_cons, hkc]
    · simp [toggleEntries, h, findEntry_cons, findEntry_toggleEntries_other hne rest]

theorem findEntry_setOpenEntries_self : ∀ (l : List (Path × FsNode)) (p : Path)
    (b : Bool),
    findEntry (setOpenEntries l p b) p =
      (findEntry l p).map (fun e => (e.1, sopNode b e.2))
  | [], p, b => rfl
  | e :: rest, p, b => by
    by_cases h : e.1 = p
    · cases e with
      | mk k n =>
        simp only at h
        subst h
        cases n with
        | mk np nk =>
          cases nk with
          | directory c o => simp [setOpenEntries, findEntry_cons, sopNode]
          | file => simp [setOpenEntries, findEntry_cons, sopNode]
    · simp [setOpenEntries, h, findEntry_cons, findEntry_setOpenEntries_self rest p b]

theorem findEntry_setOpenEntries_other {c p : Path} (hne : c ≠ p) :
    ∀ (l : List (Path × FsNode)) (b : Bool),
    findEntry (setOpenEntries l p b) c = findEntry l c
  | [], b => rfl
  | e :: rest, b => by
    by_cases h : e.1 = p
    · cases e with
      | mk k n =>
        simp only at h
        subst h
        have hkc : ¬ k = c := fun hc => hne hc.symm
        cases n with
        | mk np nk =>
          cases nk with
          | directory cs o => simp [setOpenEntries, findEntry_cons, hkc]
          | file => simp [setOpenEntries, findEntry_cons, hkc]
    · simp [setOpenEntries, h, findEntry_cons, findEntry_setOpenEntries_other hne rest b]

theorem findNode_toggle_open_self (s : StateManager) (p : Path) :
    findNode (toggle_open s p) p = (findNode s p).map togNode := by
  simp only [findNode, toggle_open, findEntry_toggleEntries_self]
  cases findEntry s.fs_nodes p with
  | none => rfl
  | some e => rfl

theorem findNode_toggle_open_other {c p : Path} (hne : c ≠ p) (s : StateManager) :
    findNode (toggle_open s p) c = findNode s c := by
  simp only [findNode, toggle_open, findEntry_toggleEntries_other hne]

theorem findNode_set_open_self (s : StateManager) (p : Path) (b : Bool) :
    findNode (set_open s p b) p = (findNode s p).map (sopNode b) := by
  simp only [findNode, set_open, findEntry_setOpenEntries_self]
  cases findEntry s.fs_nodes p with
  | none => rfl
  | some e => rfl

theorem findNode_set_open_other {c p : Path} (hne : c ≠ p) (s : StateManager)
    (b : Bool) :
    findNode (set_open s p b) c = findNode s c := by
  simp only [findNode, set_open, findEntry_setOpenEntries_other hne]

/-- C5: `load_dir` is idempotent: running it a second time on the same
directory (with the listing not returning the directory itself as its own
child) leaves the state exactly as after the first run — same child set, no
duplicate entries, no growth of the store. -/
theorem load_dir_idempotent (listing : Listing) (probe : Probe) (s : StateManager)
    (p : Path) (hp : ∀ l, listing p = some l → p ∉ l) :
    load_dir listing probe (load_dir listing probe s p).1 p =
      load_dir listing probe s p := by
  cases hl : listing p with
  | none => simp [load_dir, hl]
  | some l =>
    have hpl : p ∉ l := hp l hl
    simp only [load_dir, hl]
    have hfresh : ∀ c ∈ l,
        findEntry (setChildren (l.foldl (fun acc x => add_path probe acc x) s) p
          (sortBy pathLe l)).fs_nodes c = some (c, freshNode probe c) := by
      intro c hc
      have hcp : c ≠ p := fun hcc => hpl (hcc ▸ hc)
      show findEntry (setChildrenEntries _ p (sortBy pathLe l)) c = _
      rw [findEntry_setChildren_other hcp]
      exact findEntry_foldl_fresh probe l s c hc
    rw [foldl_add_path_fixed probe l _ hfresh]
    show (setChildren (setChildren _ p (sortBy pathLe l)) p (sortBy pathLe l), true) = _
    cases hS : l.foldl (fun acc x => add_path probe acc x) s with
    | mk ns rt =>
      simp only [setChildren, setChildrenEntries_idem]

/-- Witness for C5 at a concrete state and listing. -/
theorem load_dir_idempotent_witness :
    (∀ l, (fun q => if q = [r0] then some [[r0, a0]] else none) [r0] = some l →
      [r0] ∉ l) ∧
    load_dir (fun q => if q = [r0] then some [[r0, a0]] else none)
        (fun q => decide (q = [r0]))
        (load_dir (fun q => if q = [r0] then some [[r0, a0]] else none)
          (fun q => decide (q = [r0]))
          ⟨[([r0], ⟨[r0], FsNodeKind.directory [] false⟩)], [r0]⟩ [r0]).1 [r0] =
      load_dir (fun q => if q = [r0] then some [[r0, a0]] else none)
        (fun q => decide (q = [r0]))
        ⟨[([r0], ⟨[r0], FsNodeKind.directory [] false⟩)], [r0]⟩ [r0] :=
  ⟨fun l hl => by
      simp only [if_pos rfl] at hl
      injection hl with hl'
      rw [← hl']
      decide,
   load_dir_idempotent _ _ _ [r0]
    (fun l hl => by
      simp only [if_pos rfl] at hl
      injection hl with hl'
      rw [← hl']
      decide)⟩

/-- C10: re-listing a directory overwrites each listed child (other than the
directory itself) with a freshly probed node — closed, empty children —
discarding whatever node was registered there before. -/
theorem load_dir_resets_child_nodes (listing : Listing) (probe : Probe)
    (s : StateManager) (p : Path) (l : List Path) (c : Path) (n₀ : FsNode)
    (hl : listing p = some l) (hc : c ∈ l) (hcp : c ≠ p)
    (hreg : findNode s c = some n₀) :
    findNode (load_dir listing probe s p).1 c = some (freshNode probe c) := by
  simp only [load_dir, hl, findNode]
  show ((findEntry (setChildrenEntries _ p (sortBy pathLe l)) c).map _) = _
  rw [findEntry_setChildren_other hcp, findEntry_foldl_fresh probe l s c hc]
  rfl

/-- Witness for C10 on a one-directory state whose child is re-listed. -/
theorem load_dir_resets_child_nodes_witness :
    findNode
      (load_dir (fun q => if q = [r0] then some [[r0, a0]] else none)
        (fun q => decide (q.length < 2))
        ⟨[([r0], ⟨[r0], FsNodeKind.directory [[r0, a0]] true⟩),
          ([r0, a0], ⟨[r0, a0], FsNodeKind.directory [] true⟩)], [r0]⟩
        [r0]).1 [r0, a0] =
      some (freshNode (fun q => decide (q.length < 2)) [r0, a0]) :=
  load_dir_resets_child_nodes _ _ _ [r0] [[r0, a0]] [r0, a0]
    ⟨[r0, a0], FsNodeKind.directory [] true⟩
    (by simp) (by simp) (by simp) (by simp [findNode, findEntry, r0, a0])

/-- C6 counterexample: on listing failure `load_dir` surfaces the error to
its caller and leaves the state fully unchanged — nothing is marked loaded —
and the next expansion retries the listing (children appear once the listing
succeeds), contradicting "still marks the directory as loaded". -/
theorem load_dir_failure_counterexample :
    load_dir (fun _ => none) (fun q => decide (q = [r0]))
      ⟨[([r0], ⟨[r0], FsNodeKind.directory [] false⟩)], [r0]⟩ [r0] =
      (⟨[([r0], ⟨[r0], FsNodeKind.directory [] false⟩)], [r0]⟩, false) ∧
    findNode
      (toggleFolderPath (fun _ => none) (fun q => decide (q = [r0]))
        ⟨[([r0], ⟨[r0], FsNodeKind.directory [] false⟩)], [r0]⟩ [r0]) [r0] =
      some ⟨[r0], FsNodeKind.directory [] true⟩ ∧
    findNode
      (toggleFolderPath (fun q => if q = [r0] then some [[r0, a0]] else none)
        (fun q => decide (q = [r0]))
        (toggleFolderPath (fun q => if q = [r0] then some [[r0, a0]] else none)
          (fun q => decide (q = [r0]))
          (toggleFolderPath (fun _ => none) (fun q => decide (q = [r0]))
            ⟨[([r0], ⟨[r0], FsNodeKind.directory [] false⟩)], [r0]⟩ [r0]) [r0]) [r0])
      [r0] =
      some ⟨[r0], FsNodeKind.directory [[r0, a0]] true⟩ := by
  refine ⟨by decide, by decide, by decide⟩

/-- C6 as the code has it: on listing failure `load_dir` returns the error
and changes nothing, and `toggle_folder` ignores the error and opens the
directory anyway, so the expansion degrades to an empty open directory. -/
theorem load_dir_failure_degrades_to_empty_open (listing : Listing) (probe : Probe)
    (s : StateManager) (p q : Path)
    (hl : listing p = none)
    (hn : findNode s p = some ⟨q, FsNodeKind.directory [] false⟩) :
    load_dir listing probe s p = (s, false) ∧
    findNode (toggleFolderPath listing probe s p) p =
      some ⟨q, FsNodeKind.directory [] true⟩ := by
  have h1 : load_dir listing probe s p = (s, false) := by simp [load_dir, hl]
  refine ⟨h1, ?_⟩
  simp only [toggleFolderPath, hn]
  have h1' : (load_dir listing probe s p).1 = s := by rw [h1]
  rw [if_pos (⟨trivial, trivial⟩ : True ∧ True), h1', findNode_toggle_open_self, hn]
  rfl

/-- Witness for C6's amended statement at a concrete failing listing. -/
theorem load_dir_failure_degrades_witness :
    load_dir (fun _ => none) (fun q => decide (q = [r0]))
      ⟨[([r0], ⟨[r0], FsNodeKind.directory [] false⟩)], [r0]⟩ [r0] =
      (⟨[([r0], ⟨[r0], FsNodeKind.directory [] false⟩)], [r0]⟩, false) ∧
    findNode
      (toggleFolderPath (fun _ => none) (fun q => decide (q = [r0]))
        ⟨[([r0], ⟨[r0], FsNodeKind.directory [] false⟩)], [r0]⟩ [r0]) [r0] =
      some ⟨[r0], FsNodeKind.directory [] true⟩ :=
  load_dir_failure_degrades_to_empty_open _ _ _ [r0] [r0] rfl
    (by simp [findNode, findEntry, r0])

/-! ## Open-implies-loaded invariant (C7) -/

/-- Full characterization of the state after a successful `load_dir`. -/
theorem findNode_load_dir (listing : Listing) (probe : Probe) (s : StateManager)
    (p : Path) (l : List Path) (c : Path) (hl : listing p = some l) :
    findNode (load_dir listing probe s p).1 c =
      if c = p then
        ((if p ∈ l then some (freshNode probe p) else findNode s p).map
          (chNode (sortBy pathLe l)))
      else if c ∈ l then some (freshNode probe c)
      else findNode s c := by
  simp only [load_dir, hl]
  by_cases hcp : c = p
  · subst hcp
    rw [if_pos rfl]
    show ((findEntry (setChildrenEntries _ c (sortBy pathLe l)) c).map _) = _
    rw [findEntry_setChildren_self]
    by_cases hcl : c ∈ l
    · rw [if_pos hcl, findEntry_foldl_fresh probe l s c hcl]
      rfl
    · rw [if_neg hcl, findEntry_foldl_other probe l s c hcl]
      show _ = (findEntry s.fs_nodes c |>.map (fun e => e.2)).map _
      cases findEntry s.fs_nodes c with
      | none => rfl
      | some e => rfl
  · rw [if_neg hcp]
    show ((findEntry (setChildrenEntries _ p (sortBy pathLe l)) c).map _) = _
    rw [findEntry_setChildren_other hcp]
    by_cases hcl : c ∈ l
    · rw [if_pos hcl, findEntry_foldl_fresh probe l s c hcl]
      rfl
    · rw [if_neg hcl, findEntry_foldl_other probe l s c hcl]
      rfl

/-- After a successful `load_dir` of `p`, the directory node at `p` (when it
is one) carries exactly the sorted listing as children. -/
theorem load_dir_loads_target (listing : Listing) (probe : Probe) (s : StateManager)
    (p : Path) (l : List Path) (hl : listing p = some l) :
    ∀ n ch op, findNode (load_dir listing probe s p).1 p = some n →
      n.kind = FsNodeKind.directory ch op → ch = sortBy pathLe l := by
  intro n ch op hf hk
  rw [findNode_load_dir listing probe s p l p hl, if_pos rfl] at hf
  cases hb : (if p ∈ l then some (freshNode probe p) else findNode s p) with
  | none => rw [hb] at hf; exact absurd hf (by simp)
  | some n₀ =>
    rw [hb] at hf
    have hn : chNode (sortBy pathLe l) n₀ = n := by simpa using hf
    cases hk0 : n₀.kind with
    | file =>
      rw [← hn] at hk
      simp [chNode, hk0] at hk
    | directory ch₀ op₀ =>
      rw [← hn] at hk
      simp only [chNode, hk0] at hk
      injection hk with hk₁ hk₂
      exact hk₁.symm

theorem loadedChildren_sorted (listing : Listing) {p : Path} {l : List Path}
    (hl : listing p = some l) :
    LoadedChildren listing p (sortBy pathLe l) := by
  unfold LoadedChildren
  rw [hl]
  rfl

/-- `load_dir` preserves the open-implies-loaded invariant (the target ends
up loaded, listed children are reset to fresh closed nodes). -/
theorem inv_load_dir (listing : Listing) (probe : Probe) (s : StateManager)
    (p : Path) (hinv : OpenLoadedInv listing s) :
    OpenLoadedInv listing (load_dir listing probe s p).1 := by
  cases hl : listing p with
  | none =>
    have : (load_dir listing probe s p).1 = s := by simp [load_dir, hl]
    rw [this]
    exact hinv
  | some l =>
    intro c n ch op hfind hkind
    rw [findNode_load_dir listing probe s p l c hl] at hfind
    by_cases hcp : c = p
    · subst hcp
      rw [if_pos rfl] at hfind
      cases hb : (if c ∈ l then some (freshNode probe c) else findNode s c) with
      | none => rw [hb] at hfind; exact absurd hfind (by simp)
      | some n₀ =>
        rw [hb] at hfind
        have hn : chNode (sortBy pathLe l) n₀ = n := by simpa using hfind
        cases hk0 : n₀.kind with
        | file =>
          rw [← hn] at hkind
          simp [chNode, hk0] at hkind
        | directory ch₀ op₀ =>
          rw [← hn] at hkind
          simp only [chNode, hk0] at hkind
          injection hkind with hk₁ hk₂
          subst hk₁
          exact ⟨fun _ => loadedChildren_sorted listing hl,
            fun _ => loadedChildren_sorted listing hl⟩
    · rw [if_neg hcp] at hfind
      by_cases hcl : c ∈ l
      · rw [if_pos hcl] at hfind
        injection hfind with hn
        subst hn
        unfold freshNode at hkind
        by_cases hpb : probe c
        · rw [if_pos hpb] at hkind
          simp only at hkind
          injection hkind with hk₁ hk₂
          subst hk₁
          subst hk₂
          exact ⟨fun hc => absurd hc (by simp), fun hc => absurd rfl hc⟩
        · rw [if_neg hpb] at hkind
          simp at hkind
      · rw [if_neg hcl] at hfind
        exact hinv c n ch op hfind hkind

/-- Toggling `p` preserves the invariant provided `p`'s directory node (if
any) is loaded. -/
theorem inv_toggle_open (listing : Listing) (s : StateManager) (p : Path)
    (hinv : OpenLoadedInv listing s)
    (hload : ∀ n ch op, findNode s p = some n →
      n.kind = FsNodeKind.directory ch op → LoadedChildren listing p ch) :
    OpenLoadedInv listing (toggle_open s p) := by
  intro c n ch op hfind hkind
  by_cases hcp : c = p
  · subst hcp
    rw [findNode_toggle_open_self] at hfind
    cases hb : findNode s c with
    | none => rw [hb] at hfind; exact absurd hfind (by simp)
    | some n₀ =>
      rw [hb] at hfind
      have hn : togNode n₀ = n := by simpa using hfind
      cases hk0 : n₀.kind with
      | file =>
        rw [← hn] at hkind
        simp [togNode, hk0] at hkind
      | directory ch₀ op₀ =>
        rw [← hn] at hkind
        simp only [togNode, hk0] at hkind
        injection hkind with hk₁ hk₂
        have hld : LoadedChildren listing c ch₀ := hload n₀ ch₀ op₀ hb hk0
        refine ⟨fun _ => ?_, fun _ => ?_⟩ <;> rw [← hk₁] <;> exact hld
  · rw [findNode_toggle_open_other hcp] at hfind
    exact hinv c n ch op hfind hkind

/-- `toggleFolderPath` preserves the open-implies-loaded invariant. -/
theorem inv_toggleFolderPath (listing : Listing) (probe : Probe)
    (s : StateManager) (p : Path) (hinv : OpenLoadedInv listing s) :
    OpenLoadedInv listing (toggleFolderPath listing probe s p) := by
  cases hfp : findNode s p with
  | none =>
    have heq : toggleFolderPath listing probe s p = s := by
      unfold toggleFolderPath
      rw [hfp]
    rw [heq]
    exact hinv
  | some np =>
    cases hk : np.kind with
    | file =>
      have heq : toggleFolderPath listing probe s p = s := by
        unfold toggleFolderPath
        rw [hfp]
        simp only [hk]
      rw [heq]
      exact hinv
    | directory ch op =>
      have heq : toggleFolderPath listing probe s p =
          toggle_open (if op = false ∧ ch = [] then (load_dir listing probe s p).1
            else s) p := by
        unfold toggleFolderPath
        rw [hfp]
        simp only [hk]
      rw [heq]
      by_cases hguard : op = false ∧ ch = []
      · rw [if_pos hguard]
        refine inv_toggle_open listing _ p (inv_load_dir listing probe s p hinv) ?_
        intro n ch' op' hf hk'
        cases hl : listing p with
        | none =>
          have hsame : (load_dir listing probe s p).1 = s := by simp [load_dir, hl]
          rw [hsame] at hf
          rw [hfp] at hf
          injection hf with hf'
          subst hf'
          rw [hk] at hk'
          injection hk' with hk₁ hk₂
          subst hk₁
          rw [hguard.2]
          unfold LoadedChildren
          rw [hl]
          rfl
        | some l =>
          rw [load_dir_loads_target listing probe s p l hl n ch' op' hf hk']
          exact loadedChildren_sorted listing hl
      · rw [if_neg hguard]
        refine inv_toggle_open listing s p hinv ?_
        intro n ch' op' hf hk'
        rw [hfp] at hf
        injection hf with hf'
        subst hf'
        rw [hk] at hk'
        injection hk' with hk₁ hk₂
        rw [← hk₁]
        by_cases hch : ch = []
        · have hop : op = true := by
            by_contra hc
            exact hguard ⟨by cases op <;> simp_all, hch⟩
          exact (hinv p np ch op hfp hk).1 hop
        · exact (hinv p np ch op hfp hk).2 hch

/-- Closing a directory preserves the invariant. -/
theorem inv_set_open_false (listing : Listing) (s : StateManager) (p : Path)
    (hinv : OpenLoadedInv listing s) :
    OpenLoadedInv listing (set_open s p false) := by
  intro c n ch op hfind hkind
  by_cases hcp : c = p
  · subst hcp
    rw [findNode_set_open_self] at hfind
    cases hb : findNode s c with
    | none => rw [hb] at hfind; exact absurd hfind (by simp)
    | some n₀ =>
      rw [hb] at hfind
      have hn : sopNode false n₀ = n := by simpa using hfind
      cases hk0 : n₀.kind with
      | file =>
        rw [← hn] at hkind
        simp [sopNode, hk0] at hkind
      | directory ch₀ op₀ =>
        rw [← hn] at hkind
        simp only [sopNode, hk0] at hkind
        injection hkind with hk₁ hk₂
        refine ⟨fun hc => ?_, fun hc => ?_⟩
        · rw [← hk₂] at hc
          exact absurd hc (by simp)
        · rw [← hk₁] at hc ⊢
          exact (hinv c n₀ ch₀ op₀ hb hk0).2 hc
  · rw [findNode_set_open_other hcp] at hfind
    exact hinv c n ch op hfind hkind

/-- The startup state satisfies the invariant. -/
theorem inv_initState (listing : Listing) (probe : Probe) (root : Path) :
    OpenLoadedInv listing (initState listing probe root) := by
  have h₀ : OpenLoadedInv listing (SMnew probe root) := by
    intro c n ch op hfind hkind
    simp only [SMnew, add_path, findNode, insertNode, findEntry_cons] at hfind
    by_cases hcr : root = c
    · rw [if_pos hcr] at hfind
      injection hfind with hf'
      subst hf'
      unfold freshNode at hkind
      by_cases hpb : probe root
      · rw [if_pos hpb] at hkind
        simp only at hkind
        injection hkind with hk₁ hk₂
        subst hk₁
        subst hk₂
        exact ⟨fun hc => absurd hc (by simp), fun hc => absurd rfl hc⟩
      · rw [if_neg hpb] at hkind
        simp at hkind
    · rw [if_neg hcr] at hfind
      simp [findEntry] at hfind
  have h₁ : OpenLoadedInv listing (load_dir listing probe (SMnew probe root) root).1 :=
    inv_load_dir listing probe _ root h₀
  unfold initState
  intro c n ch op hfind hkind
  by_cases hcr : c = root
  · subst hcr
    rw [findNode_set_open_self] at hfind
    cases hb : findNode (load_dir listing probe (SMnew probe c) c).1 c with
    | none => rw [hb] at hfind; exact absurd hfind (by simp)
    | some n₀ =>
      rw [hb] at hfind
      have hn : sopNode true n₀ = n := by simpa using hfind
      cases hk0 : n₀.kind with
      | file =>
        rw [← hn] at hkind
        simp [sopNode, hk0] at hkind
      | directory ch₀ op₀ =>
        rw [← hn] at hkind
        simp only [sopNode, hk0] at hkind
        injection hkind with hk₁ hk₂
        have hld : LoadedChildren listing c ch₀ := by
          cases hl : listing c with
          | none =>
            have hsame : (load_dir listing probe (SMnew probe c) c).1 =
                SMnew probe c := by simp [load_dir, hl]
            rw [hsame] at hb
            simp only [SMnew, add_path, findNode, insertNode, findEntry_cons,
              if_pos rfl] at hb
            injection hb with hb'
            subst hb'
            unfold freshNode at hk0
            by_cases hpb : probe c
            · rw [if_pos hpb] at hk0
              simp only at hk0
              injection hk0 with hc₁ hc₂
              subst hc₁
              unfold LoadedChildren
              rw [hl]
              rfl
            · rw [if_neg hpb] at hk0
              simp at hk0
          | some l =>
            rw [load_dir_loads_target listing probe _ c l hl n₀ ch₀ op₀ hb hk0]
            exact loadedChildren_sorted listing hl
        refine ⟨fun _ => ?_, fun _ => ?_⟩ <;> rw [← hk₁] <;> exact hld
  · rw [findNode_set_open_other hcr] at hfind
    exact h₁ c n ch op hfind hkind

/-- C7: in every state reachable from startup through the mutating UI
commands, every open directory has its children loaded — equal to the sorted
result of the (fixed) listing collaborator, empty when the listing fails —
because every path that opens a directory loads it first. -/
theorem reachable_open_implies_loaded (listing : Listing) (probe : Probe)
    (root : Path) (s : StateManager)
    (hr : ReachUI listing probe root s) : OpenLoadedInv listing s := by
  induction hr with
  | init => exact inv_initState listing probe root
  | toggle s p _ ih => exact inv_toggleFolderPath listing probe s p ih
  | closeStep s p _ ih => exact inv_set_open_false listing s p ih

/-- Witness for C7 at the startup state of a concrete tree. -/
theorem reachable_open_implies_loaded_witness :
    ReachUI (fun q => if q = [r0] then some [[r0, a0]] else none)
      (fun q => decide (q = [r0])) [r0]
      (initState (fun q => if q = [r0] then some [[r0, a0]] else none)
        (fun q => decide (q = [r0])) [r0]) ∧
    OpenLoadedInv (fun q => if q = [r0] then some [[r0, a0]] else none)
      (initState (fun q => if q = [r0] then some [[r0, a0]] else none)
        (fun q => decide (q = [r0])) [r0]) :=
  ⟨ReachUI.init,
   reachable_open_implies_loaded _ _ [r0] _ ReachUI.init⟩

/-! ## Sorting lemmas -/

theorem orderedInsert_perm (le : α → α → Bool) (a : α) :
    ∀ (l : List α), List.Perm (orderedInsert le a l) (a :: l)
  | [] => List.Perm.refl _
  | b :: l => by
    unfold orderedInsert
    by_cases h : le a b
    · rw [if_pos h]
    · rw [if_neg h]
      exact List.Perm.trans (List.Perm.cons b (orderedInsert_perm le a l))
        (List.Perm.swap a b l)

theorem sortBy_perm (le : α → α → Bool) :
    ∀ (l : List α), List.Perm (sortBy le l) l
  | [] => List.Perm.refl _
  | a :: l =>
    List.Perm.trans (orderedInsert_perm le a (sortBy le l))
      (List.Perm.cons a (sortBy_perm le l))

theorem mem_sortBy {le : α → α → Bool} {l : List α} {x : α} :
    x ∈ sortBy le l ↔ x ∈ l :=
  (sortBy_perm le l).mem_iff

theorem nodup_sortBy {le : α → α → Bool} {l : List α} (h : l.Nodup) :
    (sortBy le l).Nodup :=
  (sortBy_perm le l).nodup_iff.mpr h

theorem orderedInsert_congr (le₁ le₂ : α → α → Bool) (a : α) :
    ∀ (l : List α), (∀ b ∈ l, le₁ a b = le₂ a b) →
    orderedInsert le₁ a l = orderedInsert le₂ a l
  | [], _ => rfl
  | b :: l, h => by
    unfold orderedInsert
    rw [h b (by simp)]
    by_cases hb : le₂ a b
    · rw [if_pos hb, if_pos hb]
    · rw [if_neg hb, if_neg hb,
        orderedInsert_congr le₁ le₂ a l (fun x hx => h x (by simp [hx]))]

theorem sortBy_congr (le₁ le₂ : α → α → Bool) :
    ∀ (l : List α), (∀ a ∈ l, ∀ b ∈ l, le₁ a b = le₂ a b) →
    sortBy le₁ l = sortBy le₂ l
  | [], _ => rfl
  | a :: l, h => by
    unfold sortBy
    rw [sortBy_congr le₁ le₂ l (fun x hx y hy => h x (by simp [hx]) y (by simp [hy]))]
    refine orderedInsert_congr le₁ le₂ a _ ?_
    intro b hb
    have hbl : b ∈ l := mem_sortBy.mp hb
    exact h a (by simp) b (by simp [hbl])

theorem concatMap_congr {f g : α → List β} :
    ∀ (l : List α), (∀ a ∈ l, f a = g a) → concatMap f l = concatMap g l
  | [], _ => rfl
  | a :: l, h => by
    unfold concatMap
    rw [h a (by simp), concatMap_congr l (fun x hx => h x (by simp [hx]))]

theorem mem_concatMap {f : α → List β} {x : β} :
    ∀ {l : List α}, x ∈ concatMap f l ↔ ∃ a ∈ l, x ∈ f a
  | [] => by simp [concatMap]
  | a :: l => by
    simp only [concatMap, List.mem_append, mem_concatMap, List.mem_cons]
    constructor
    · rintro (h | ⟨b, hb, hx⟩)
      · exact ⟨a, Or.inl rfl, h⟩
      · exact ⟨b, Or.inr hb, hx⟩
    · rintro ⟨b, hb | hb, hx⟩
      · exact Or.inl (hb ▸ hx)
      · exact Or.inr ⟨b, hb, hx⟩

theorem concatMap_append (f : α → List β) :
    ∀ (l₁ l₂ : List α),
    concatMap f (l₁ ++ l₂) = concatMap f l₁ ++ concatMap f l₂
  | [], l₂ => rfl
  | a :: l₁, l₂ => by
    show f a ++ concatMap f (l₁ ++ l₂) = (f a ++ concatMap f l₁) ++ concatMap f l₂
    rw [concatMap_append f l₁ l₂, List.append_assoc]

/-! ## Path prefix lemmas -/

theorem under_refl (p : Path) : under p p = true := by
  simp [under]

theorem under_append (d r : Path) : under d (d ++ r) = true := by
  simp [under, List.take_left]

theorem under_iff {d q : Path} : under d q = true ↔ ∃ r, q = d ++ r := by
  constructor
  · intro h
    simp only [under, decide_eq_true_eq] at h
    have hq := (List.take_append_drop d.length q).symm
    rw [h] at hq
    exact ⟨q.drop d.length, hq⟩
  · rintro ⟨r, rfl⟩
    exact under_append d r

theorem under_length {d q : Path} (h : under d q = true) : d.length ≤ q.length := by
  obtain ⟨r, rfl⟩ := under_iff.mp h
  simp

theorem under_trans {a b c : Path} (h₁ : under a b = true) (h₂ : under b c = true) :
    under a c = true := by
  obtain ⟨r₁, rfl⟩ := under_iff.mp h₁
  obtain ⟨r₂, rfl⟩ := under_iff.mp h₂
  rw [List.append_assoc]
  exact under_append a _

theorem under_of_le {d c q : Path} (hd : under d q = true) (hc : under c q = true)
    (hlen : d.length ≤ c.length) : under d c = true := by
  simp only [under, decide_eq_true_eq] at hd hc ⊢
  rw [← hc, List.take_take, Nat.min_eq_left hlen, hd]

theorem under_eq_of_length {d c : Path} (h : under d c = true)
    (hlen : c.length ≤ d.length) : d = c := by
  obtain ⟨r, rfl⟩ := under_iff.mp h
  have : r = [] := by
    rw [List.length_append] at hlen
    cases r with
    | nil => rfl
    | cons x xs => simp at hlen
  simp [this]

theorem properUnder_iff {d q : Path} :
    properUnder d q = true ↔ d.length < q.length ∧ under d q = true := by
  simp [properUnder]

theorem properUnder_irrefl (d : Path) : properUnder d d = false := by
  simp [properUnder]

theorem not_properUnder_self (d : Path) : ¬ properUnder d d = true := by
  simp [properUnder_irrefl]

theorem properUnder_of_append_cons (d : Path) (x : String) (r : Path) :
    properUnder d (d ++ x :: r) = true := by
  rw [properUnder_iff]
  exact ⟨by simp, under_append d (x :: r)⟩

theorem under_of_properUnder {d q : Path} (h : properUnder d q = true) :
    under d q = true := (properUnder_iff.mp h).2

theorem properUnder_ne {d q : Path} (h : properUnder d q = true) : q ≠ d := by
  intro hc
  subst hc
  rw [properUnder_irrefl] at h
  exact absurd h (by simp)

theorem properUnder_trans_under {d c q : Path} (h₁ : properUnder d c = true)
    (h₂ : under c q = true) : properUnder d q = true := by
  rw [properUnder_iff] at h₁ ⊢
  exact ⟨Nat.lt_of_lt_of_le h₁.1 (under_length h₂), under_trans h₁.2 h₂⟩

theorem under_trans_properUnder {d c q : Path} (h₁ : under d c = true)
    (h₂ : properUnder c q = true) : properUnder d q = true := by
  rw [properUnder_iff] at h₂ ⊢
  exact ⟨Nat.lt_of_le_of_lt (under_length h₁) h₂.1, under_trans h₁ h₂.2⟩

theorem child_shape {p c : Path} (hdl : c.dropLast = p) (hne : c ≠ []) :
    ∃ x, c = p ++ [x] := by
  refine ⟨c.getLast hne, ?_⟩
  rw [← hdl]
  exact (List.dropLast_append_getLast hne).symm

theorem properUnder_child {p c : Path} (hdl : c.dropLast = p) (hne : c ≠ []) :
    properUnder p c = true := by
  obtain ⟨x, rfl⟩ := child_shape hdl hne
  exact properUnder_of_append_cons p x []

/-! ## Tree states and the projection walk -/

theorem treeState_of_bool {s : StateManager} (h : treeStateB s = true) :
    TreeState s := by
  intro e he
  exact List.all_eq_true.mp h e he

theorem treeState_node {s : StateManager} {p : Path} {n : FsNode}
    (hts : TreeState s) (hf : findNode s p = some n) :
    n.path = p ∧ (∀ ch op, n.kind = FsNodeKind.directory ch op →
      (∀ c ∈ ch, c.dropLast = p ∧ c ≠ []) ∧ ch.Nodup) := by
  unfold findNode at hf
  cases he : findEntry s.fs_nodes p with
  | none => rw [he] at hf; exact absurd hf (by simp)
  | some e =>
    rw [he] at hf
    have hn : e.2 = n := by simpa using hf
    have hkey : e.1 = p := by
      have hp := List.find?_some he
      simpa using hp
    have hok := hts e (List.mem_of_find?_eq_some he)
    unfold entryOk at hok
    rw [Bool.and_eq_true] at hok
    obtain ⟨hpath, hkind⟩ := hok
    constructor
    · rw [← hn, ← hkey]
      exact of_decide_eq_true hpath
    · intro ch op hk
      rw [← hn] at hk
      simp only [hk, Bool.and_eq_true] at hkind
      obtain ⟨hch, hnd⟩ := hkind
      constructor
      · intro c hc
        have hcb := List.all_eq_true.mp hch c hc
        rw [Bool.and_eq_true] at hcb
        exact ⟨by rw [← hkey]; exact of_decide_eq_true hcb.1,
          of_decide_eq_true hcb.2⟩
      · exact of_decide_eq_true hnd

theorem mkItem_path (n : FsNode) (depth : Nat) : (mkItem n depth).path = n.path := rfl

theorem collect_under {s : StateManager} {f : Filter} {srt : SortMode}
    (hts : TreeState s) :
    ∀ (fuel : Nat) (p : Path) (depth : Nat) (it : ViewItem),
    it ∈ collectRec s f srt fuel p depth → under p it.path = true
  | 0, p, depth, it, h => absurd h (by simp [collectRec])
  | Nat.succ fuel, p, depth, it, h => by
    unfold collectRec at h
    cases hf : findNode s p with
    | none => rw [hf] at h; exact absurd h (by simp)
    | some n =>
      obtain ⟨hpath, hkids⟩ := treeState_node hts hf
      simp only [hf] at h
      cases hk : n.kind with
      | file =>
        simp only [hk, List.mem_singleton] at h
        rw [h, mkItem_path, hpath]
        exact under_refl p
      | directory ch op =>
        cases op with
        | false =>
          simp only [hk, List.mem_singleton] at h
          rw [h, mkItem_path, hpath]
          exact under_refl p
        | true =>
          simp only [hk, List.mem_cons] at h
          rcases h with h | h
          · rw [h, mkItem_path, hpath]
            exact under_refl p
          · rw [mem_concatMap] at h
            obtain ⟨c, hcmem, hit⟩ := h
            have hcch : c ∈ ch := mem_sortBy.mp hcmem
            by_cases hsd : should_display c s f
            · rw [if_pos hsd] at hit
              have hunder := collect_under hts fuel c (depth + 1) it hit
              obtain ⟨hdl, hne⟩ := (hkids ch true hk).1 c hcch
              exact under_trans
                (under_of_properUnder (properUnder_child hdl hne)) hunder
            · rw [if_neg hsd] at hit
              exact absurd hit (by simp)

theorem collect_display_chain {s : StateManager} {f : Filter} {srt : SortMode}
    (hts : TreeState s) :
    ∀ (fuel : Nat) (p : Path) (depth : Nat) (it : ViewItem),
    it ∈ collectRec s f srt fuel p depth →
    ∀ c, c ≠ p → under p c = true → under c it.path = true →
    should_display c s f = true
  | 0, p, depth, it, h => absurd h (by simp [collectRec])
  | Nat.succ fuel, p, depth, it, h => by
    intro c hcp hpc hcq
    unfold collectRec at h
    cases hf : findNode s p with
    | none => rw [hf] at h; exact absurd h (by simp)
    | some n =>
      obtain ⟨hpath, hkids⟩ := treeState_node hts hf
      simp only [hf] at h
      have hhead : it = mkItem n depth → False := by
        intro hit
        rw [hit, mkItem_path, hpath] at hcq
        exact hcp (under_eq_of_length hcq (under_length hpc))
      cases hk : n.kind with
      | file =>
        simp only [hk, List.mem_singleton] at h
        exact absurd h (fun hh => hhead hh)
      | directory ch op =>
        cases op with
        | false =>
          simp only [hk, List.mem_singleton] at h
          exact absurd h (fun hh => hhead hh)
        | true =>
          simp only [hk, List.mem_cons] at h
          rcases h with h | h
          · exact absurd h (fun hh => hhead hh)
          · rw [mem_concatMap] at h
            obtain ⟨c₀, hcmem, hit⟩ := h
            have hc₀ch : c₀ ∈ ch := mem_sortBy.mp hcmem
            by_cases hsd : should_display c₀ s f
            · rw [if_pos hsd] at hit
              by_cases hcc₀ : c = c₀
              · rw [hcc₀]
                exact hsd
              · obtain ⟨hdl, hne⟩ := (hkids ch true hk).1 c₀ hc₀ch
                obtain ⟨x, hcx⟩ := child_shape hdl hne
                have hc₀q : under c₀ it.path = true :=
                  collect_under hts fuel c₀ (depth + 1) it hit
                have hplt : p.length < c.length := by
                  rcases Nat.lt_or_ge p.length c.length with hlt | hge
                  · exact hlt
                  · exact absurd (under_eq_of_length hpc hge).symm hcp
                have hc₀len : c₀.length ≤ c.length := by
                  rw [hcx]
                  simp only [List.length_append, List.length_cons, List.length_nil]
                  omega
                have hc₀c : under c₀ c = true := by
                  rcases Nat.lt_or_ge c₀.length c.length with hlt | hge
                  · exact under_of_le hc₀q hcq (Nat.le_of_lt hlt)
                  · have : c₀ = c :=
                      under_eq_of_length (under_of_le hc₀q hcq hc₀len)
                        (Nat.le_antisymm hge hc₀len ▸ Nat.le_refl _)
                    exact absurd this.symm hcc₀
                exact collect_display_chain hts fuel c₀ (depth + 1) it hit c
                  (fun hc => hcc₀ hc) hc₀c hcq
            · rw [if_neg hsd] at hit
              exact absurd hit (by simp)

/-- C4: the filters are applied conjunctively — unregistered paths hidden,
the dotfile toggle keying on the leaf name regardless of kind, the file
toggle hiding files, the directory toggle hiding only closed directories —
and a child that fails the filter is skipped together with its entire
subtree, whatever the open states inside it. -/
theorem filter_conjunctive_semantics (s : StateManager) (f : Filter)
    (srt : SortMode) (c : Path) (hts : TreeState s)
    (hc : under s.root c = true) (hne : c ≠ s.root) :
    (∀ c', should_display c' s f =
      ((findNode s c').isSome && !(dotfileHidden f c') &&
       !(f.files && isFileAt s c') && !(f.directories && isClosedDirAt s c'))) ∧
    (should_display c s f = false →
      ∀ it ∈ stateToView s f srt, under c it.path = false) := by
  constructor
  · intro c'
    unfold should_display dotfileHidden isFileAt isClosedDirAt
    cases hfind : findNode s c' with
    | none => simp
    | some n =>
      cases hk : n.kind with
      | file =>
        cases hdot : f.dotfiles <;> cases hst : (leafName c').startsWith "." <;>
          cases hfl : f.files <;> simp [hdot, hst, hfl, hk]
      | directory ch op =>
        cases hdot : f.dotfiles <;> cases hst : (leafName c').startsWith "." <;>
          cases hdir : f.directories <;> cases hop : op <;>
          simp [hdot, hst, hdir, hop, hk]
  · intro hsd it hit
    cases hu : under c it.path with
    | false => rfl
    | true =>
      have := collect_display_chain hts (projFuel s) s.root 0 it hit c hne hc hu
      rw [hsd] at this
      exact absurd this (by simp)

/-- Witness for C4 on a two-node tree. -/
theorem filter_conjunctive_semantics_witness :
    TreeState ⟨[([r0], ⟨[r0], FsNodeKind.directory [[r0, a0]] true⟩),
      ([r0, a0], ⟨[r0, a0], FsNodeKind.file⟩)], [r0]⟩ ∧
    under [r0] [r0, a0] = true ∧ [r0, a0] ≠ [r0] ∧
    (should_display [r0, a0]
        ⟨[([r0], ⟨[r0], FsNodeKind.directory [[r0, a0]] true⟩),
          ([r0, a0], ⟨[r0, a0], FsNodeKind.file⟩)], [r0]⟩
        ⟨false, true, false⟩ = false →
      ∀ it ∈ stateToView
        ⟨[([r0], ⟨[r0], FsNodeKind.directory [[r0, a0]] true⟩),
          ([r0, a0], ⟨[r0, a0], FsNodeKind.file⟩)], [r0]⟩
        ⟨false, true, false⟩ SortMode.alphabetical,
        under [r0, a0] it.path = false) :=
  ⟨treeState_of_bool (by decide), by decide, by decide,
   (filter_conjunctive_semantics _ ⟨false, true, false⟩ SortMode.alphabetical
      [r0, a0] (treeState_of_bool (by decide)) (by decide) (by decide)).2⟩

/-! ## Closing a directory and the projection (C8) -/

theorem itemPaths_cons (a : ViewItem) (l : List ViewItem) :
    itemPaths (a :: l) = a.path :: itemPaths l := rfl

theorem itemPaths_append (l₁ l₂ : List ViewItem) :
    itemPaths (l₁ ++ l₂) = itemPaths l₁ ++ itemPaths l₂ :=
  List.map_append _ l₁ l₂

theorem itemPaths_concatMap (g : α → List ViewItem) :
    ∀ (l : List α),
    itemPaths (concatMap g l) = concatMap (fun a => itemPaths (g a)) l
  | [] => rfl
  | a :: l => by
    show itemPaths (g a ++ concatMap g l) = _
    rw [itemPaths_append, itemPaths_concatMap g l]
    rfl

theorem filter_concatMap (pred : β → Bool) (g : α → List β) :
    ∀ (l : List α),
    (concatMap g l).filter pred = concatMap (fun a => (g a).filter pred) l
  | [] => rfl
  | a :: l => by
    show ((g a ++ concatMap g l).filter pred) = _
    rw [List.filter_append, filter_concatMap pred g l]
    rfl

theorem filter_cons_keep (pred : β → Bool) (a : β) (l : List β)
    (h : pred a = true) :
    List.filter pred (a :: l) = a :: List.filter pred l := by
  simp only [List.filter, h]

theorem sopNode_path (b : Bool) (n : FsNode) : (sopNode b n).path = n.path := by
  cases n with
  | mk p k => cases k <;> rfl

theorem isDirNode_sopNode (b : Bool) (n : FsNode) :
    isDirNode (sopNode b n) = isDirNode n := by
  cases n with
  | mk p k => cases k <;> rfl

theorem findNode_set_open (s : StateManager) (d c : Path) (bo : Bool) :
    findNode (set_open s d bo) c =
      (findNode s c).map (fun n => if c = d then sopNode bo n else n) := by
  by_cases hcd : c = d
  · subst hcd
    rw [findNode_set_open_self]
    cases findNode s c with
    | none => rfl
    | some n => simp
  · rw [findNode_set_open_other hcd]
    cases findNode s c with
    | none => rfl
    | some n => simp [hcd]

theorem cmpChild_set_open (s : StateManager) (d : Path) (bo : Bool)
    (srt : SortMode) (a b : Path) :
    cmpChild (set_open s d bo) srt a b = cmpChild s srt a b := by
  unfold cmpChild
  rw [findNode_set_open s d a bo, findNode_set_open s d b bo]
  cases findNode s a with
  | none =>
    cases findNode s b with
    | none => rfl
    | some nb => rfl
  | some na =>
    cases findNode s b with
    | none => rfl
    | some nb =>
      have hd₁ : isDirNode (if a = d then sopNode bo na else na) = isDirNode na := by
        by_cases h : a = d <;> simp [h, isDirNode_sopNode]
      have hd₂ : isDirNode (if b = d then sopNode bo nb else nb) = isDirNode nb := by
        by_cases h : b = d <;> simp [h, isDirNode_sopNode]
      have hp₁ : (if a = d then sopNode bo na else na).path = na.path := by
        by_cases h : a = d <;> simp [h, sopNode_path]
      have hp₂ : (if b = d then sopNode bo nb else nb).path = nb.path := by
        by_cases h : b = d <;> simp [h, sopNode_path]
      cases srt <;> simp only [Option.map_some', hd₁, hd₂, hp₁, hp₂]

theorem sortChildren_set_open (s : StateManager) (d : Path) (bo : Bool)
    (ch : List Path) (srt : SortMode) :
    sortChildren (set_open s d bo) ch srt = sortChildren s ch srt := by
  unfold sortChildren
  have hle : childLe (set_open s d bo) srt = childLe s srt := by
    funext a b
    unfold childLe
    rw [cmpChild_set_open]
  rw [hle]

theorem should_display_set_open (s : StateManager) (d c : Path) (f : Filter)
    (hdir : f.directories = false) :
    should_display c (set_open s d false) f = should_display c s f := by
  unfold should_display
  rw [findNode_set_open]
  cases findNode s c with
  | none => rfl
  | some n =>
    simp only [Option.map_some']
    by_cases hcd : c = d
    · rw [if_pos hcd]
      cases n with
      | mk np nk =>
        cases nk with
        | file => rfl
        | directory ch op =>
          simp [sopNode, hdir]
    · rw [if_neg hcd]

theorem projFuel_set_open (s : StateManager) (d : Path) (bo : Bool) :
    projFuel (set_open s d bo) = projFuel s := by
  unfold projFuel set_open
  simp only
  congr 1
  have hgen : ∀ (l : List (Path × FsNode)),
      (setOpenEntries l d bo).foldr (fun e m => max e.1.length m) 0 =
        l.foldr (fun e m => max e.1.length m) 0 := by
    intro l
    induction l with
    | nil => rfl
    | cons e rest ih =>
      by_cases h : e.1 = d
      · cases e with
        | mk k n =>
          simp only at h
          subst h
          cases n with
          | mk np nk =>
            cases nk with
            | directory ch op => simp [setOpenEntries, List.foldr, ih]
            | file => simp [setOpenEntries, List.foldr, ih]
      · simp [setOpenEntries, h, List.foldr, ih]
  exact hgen s.fs_nodes

/-- Closing `d` prunes from every subtree rooted outside `d`'s strict
descendants exactly the strict descendants of `d`. -/
theorem collect_set_open_filter {s : StateManager} {f : Filter} {srt : SortMode}
    {d : Path} (hts : TreeState s) (hdir : f.directories = false) :
    ∀ (fuel : Nat) (p : Path) (depth : Nat), properUnder d p = false →
    itemPaths (collectRec (set_open s d false) f srt fuel p depth) =
      (itemPaths (collectRec s f srt fuel p depth)).filter
        (fun q => !(properUnder d q))
  | 0, p, depth, _ => by simp [collectRec, itemPaths]
  | Nat.succ fuel, p, depth, hpd => by
    cases hf : findNode s p with
    | none =>
      have hf' : findNode (set_open s d false) p = none := by
        rw [findNode_set_open, hf]
        rfl
      unfold collectRec
      simp [hf, hf', itemPaths]
    | some n =>
      obtain ⟨hpath, hkids⟩ := treeState_node hts hf
      have hkeep : (!properUnder d n.path) = true := by
        rw [hpath, hpd]
        rfl
      have hkeepItem : (fun q => !properUnder d q) (mkItem n depth).path = true := by
        simpa [mkItem] using hkeep
      by_cases hpdq : p = d
      · subst hpdq
        have hf' : findNode (set_open s p false) p = some (sopNode false n) := by
          rw [findNode_set_open, hf]
          simp
        unfold collectRec
        simp only [hf, hf']
        cases hk : n.kind with
        | file =>
          have hsk : (sopNode false n).kind = FsNodeKind.file := by
            cases n with
            | mk np nk => simp_all [sopNode]
          simp only [hsk, hk]
          simp [itemPaths, mkItem, sopNode_path, hkeep]
        | directory ch op =>
          have hsk : (sopNode false n).kind = FsNodeKind.directory ch false := by
            cases n with
            | mk np nk => simp_all [sopNode]
          cases op with
          | false =>
            simp only [hsk, hk]
            simp [itemPaths, mkItem, sopNode_path, hkeep]
          | true =>
            simp only [hsk, hk]
            have hblocks : (itemPaths
                (concatMap (fun c => if should_display c s f then
                  collectRec s f srt fuel c (depth + 1) else [])
                  (sortChildren s ch srt))).filter
                  (fun q => !(properUnder p q)) = [] := by
              rw [List.filter_eq_nil_iff]
              intro q hq
              rw [itemPaths, List.mem_map] at hq
              obtain ⟨it, hit, hq'⟩ := hq
              rw [mem_concatMap] at hit
              obtain ⟨c, hcmem, hitc⟩ := hit
              have hcch : c ∈ ch := mem_sortBy.mp hcmem
              by_cases hsd : should_display c s f
              · rw [if_pos hsd] at hitc
                obtain ⟨hdl, hne⟩ := (hkids ch true hk).1 c hcch
                have hpc : properUnder p c = true := properUnder_child hdl hne
                have huq : under c it.path = true :=
                  collect_under hts fuel c (depth + 1) it hitc
                have hpq : properUnder p q = true := by
                  rw [← hq']
                  exact properUnder_trans_under hpc huq
                simp [hpq]
              · rw [if_neg hsd] at hitc
                exact absurd hitc (by simp)
            rw [itemPaths_cons, itemPaths_cons,
              filter_cons_keep (fun q => !properUnder p q) (mkItem n depth).path _
                hkeepItem, hblocks]
            simp [itemPaths, mkItem, sopNode_path]
      · have hf' : findNode (set_open s d false) p = some n := by
          rw [findNode_set_open, hf]
          simp [hpdq]
        unfold collectRec
        simp only [hf, hf']
        cases hk : n.kind with
        | file =>
          simp only [hk]
          rw [itemPaths_cons,
            filter_cons_keep (fun q => !properUnder d q) (mkItem n depth).path _
              hkeepItem]
          rfl
        | directory ch op =>
          cases op with
          | false =>
            simp only [hk]
            rw [itemPaths_cons,
              filter_cons_keep (fun q => !properUnder d q) (mkItem n depth).path _
                hkeepItem]
            rfl
          | true =>
            simp only [hk]
            rw [itemPaths_cons, itemPaths_cons,
              filter_cons_keep (fun q => !properUnder d q) (mkItem n depth).path _
                hkeepItem]
            rw [sortChildren_set_open]
            rw [itemPaths_concatMap, itemPaths_concatMap, filter_concatMap]
            rw [concatMap_congr (sortChildren s ch srt) ?_]
            intro c hcmem
            have hcch : c ∈ ch := mem_sortBy.mp hcmem
            rw [should_display_set_open s d c f hdir]
            by_cases hsd : should_display c s f
            · rw [if_pos hsd, if_pos hsd]
              obtain ⟨hdl, hne⟩ := (hkids ch true hk).1 c hcch
              have hcdp : properUnder d c = false := by
                cases hdc : properUnder d c with
                | false => rfl
                | true =>
                  obtain ⟨x, hcx⟩ := child_shape hdl hne
                  have hdlen : d.length ≤ p.length := by
                    have hlen := (properUnder_iff.mp hdc).1
                    rw [hcx] at hlen
                    simp only [List.length_append, List.length_cons,
                      List.length_nil] at hlen
                    omega
                  have hupc : under p c = true := by
                    rw [hcx]
                    exact under_append p [x]
                  have hudp : under d p = true :=
                    under_of_le (under_of_properUnder hdc) hupc hdlen
                  rcases Nat.lt_or_ge d.length p.length with hlt | hge
                  · have hcon : properUnder d p = true :=
                      properUnder_iff.mpr ⟨hlt, hudp⟩
                    rw [hcon] at hpd
                    exact absurd hpd (by simp)
                  · exact absurd (under_eq_of_length hudp hge).symm hpdq
              exact collect_set_open_filter hts hdir fuel c (depth + 1) hcdp
            · rw [if_neg hsd, if_neg hsd]
              rfl


/-- C8 counterexample: with the hide-closed-directories filter enabled,
closing an open directory removes the directory's own entry as well, not
only its strict descendants. -/
theorem close_directory_filter_counterexample :
    ([r0, a0] ∈ viewPaths
      ⟨[([r0], ⟨[r0], FsNodeKind.directory [[r0, a0]] true⟩),
        ([r0, a0], ⟨[r0, a0], FsNodeKind.directory [[r0, a0, b0]] true⟩),
        ([r0, a0, b0], ⟨[r0, a0, b0], FsNodeKind.file⟩)], [r0]⟩
      ⟨true, false, false⟩ SortMode.alphabetical) ∧
    viewPaths
      (set_open
        ⟨[([r0], ⟨[r0], FsNodeKind.directory [[r0, a0]] true⟩),
          ([r0, a0], ⟨[r0, a0], FsNodeKind.directory [[r0, a0, b0]] true⟩),
          ([r0, a0, b0], ⟨[r0, a0, b0], FsNodeKind.file⟩)], [r0]⟩
        [r0, a0] false)
      ⟨true, false, false⟩ SortMode.alphabetical = [[r0]] := by
  refine ⟨by decide, by decide⟩

/-- C8 as amended: with the directory filter disabled, closing an open
directory `d` of the tree removes from the displayed path sequence exactly
the strict descendants of `d`, and `d`'s own entry survives whenever it was
displayed. -/
theorem close_removes_exactly_descendants (s : StateManager) (f : Filter)
    (srt : SortMode) (d : Path) (hts : TreeState s)
    (hdir : f.directories = false) (hroot : under s.root d = true) :
    viewPaths (set_open s d false) f srt =
      (viewPaths s f srt).filter (fun q => !(properUnder d q)) ∧
    (d ∈ viewPaths s f srt → d ∈ viewPaths (set_open s d false) f srt) := by
  have hrootd : properUnder d s.root = false := by
    cases hc : properUnder d s.root with
    | false => rfl
    | true =>
      have h₁ := (properUnder_iff.mp hc).1
      have h₂ := under_length hroot
      omega
  have hmain : viewPaths (set_open s d false) f srt =
      (viewPaths s f srt).filter (fun q => !(properUnder d q)) := by
    show itemPaths (stateToView (set_open s d false) f srt) =
      (itemPaths (stateToView s f srt)).filter _
    unfold stateToView
    rw [projFuel_set_open]
    show itemPaths (collectRec (set_open s d false) f srt (projFuel s) s.root 0) = _
    exact collect_set_open_filter hts hdir (projFuel s) s.root 0 hrootd
  refine ⟨hmain, fun hd => ?_⟩
  rw [hmain, List.mem_filter]
  exact ⟨hd, by simp [properUnder_irrefl]⟩

/-- Witness for C8's amended statement on a three-node tree. -/
theorem close_removes_exactly_descendants_witness :
    TreeState ⟨[([r0], ⟨[r0], FsNodeKind.directory [[r0, a0]] true⟩),
      ([r0, a0], ⟨[r0, a0], FsNodeKind.directory [[r0, a0, b0]] true⟩),
      ([r0, a0, b0], ⟨[r0, a0, b0], FsNodeKind.file⟩)], [r0]⟩ ∧
    viewPaths
      (set_open
        ⟨[([r0], ⟨[r0], FsNodeKind.directory [[r0, a0]] true⟩),
          ([r0, a0], ⟨[r0, a0], FsNodeKind.directory [[r0, a0, b0]] true⟩),
          ([r0, a0, b0], ⟨[r0, a0, b0], FsNodeKind.file⟩)], [r0]⟩
        [r0, a0] false)
      ⟨false, false, false⟩ SortMode.alphabetical =
      (viewPaths
        ⟨[([r0], ⟨[r0], FsNodeKind.directory [[r0, a0]] true⟩),
          ([r0, a0], ⟨[r0, a0], FsNodeKind.directory [[r0, a0, b0]] true⟩),
          ([r0, a0, b0], ⟨[r0, a0, b0], FsNodeKind.file⟩)], [r0]⟩
        ⟨false, false, false⟩ SortMode.alphabetical).filter
        (fun q => !(properUnder [r0, a0] q)) :=
  ⟨treeState_of_bool (by decide),
   (close_removes_exactly_descendants _ ⟨false, false, false⟩
      SortMode.alphabetical [r0, a0] (treeState_of_bool (by decide)) rfl
      (by decide)).1⟩

/-! ## Selection tracking for close_nearest (C9) -/

theorem not_properUnder_of_under {a b : Path} (h : under a b = true) :
    properUnder b a = false := by
  cases hc : properUnder b a with
  | false => rfl
  | true =>
    have h₁ := (properUnder_iff.mp hc).1
    have h₂ := under_length h
    omega

theorem singleton_split {a y : α} {X Y : List α} (h : [a] = X ++ y :: Y) :
    X = [] ∧ y = a ∧ Y = [] := by
  cases X with
  | nil =>
    injection h with h₁ h₂
    exact ⟨rfl, h₁.symm, h₂.symm⟩
  | cons x xs =>
    injection h with h₁ h₂
    exact absurd h₂.symm (by simp)

theorem concatMap_split {f : α → List β} : ∀ (l : List α) (X : List β) (y : β)
    (Y : List β), concatMap f l = X ++ y :: Y →
    ∃ l₁ a l₂ Xa Ya, l = l₁ ++ a :: l₂ ∧ f a = Xa ++ y :: Ya ∧
      X = concatMap f l₁ ++ Xa ∧ Y = Ya ++ concatMap f l₂
  | [], X, y, Y, h => by
    exact absurd h.symm (by simp [concatMap])
  | a :: l, X, y, Y, h => by
    rw [show concatMap f (a :: l) = f a ++ concatMap f l from rfl] at h
    rcases List.append_eq_append_iff.mp h with ⟨a', ha₁, ha₂⟩ | ⟨c', hc₁, hc₂⟩
    · obtain ⟨l₁, b, l₂, Xa, Ya, hl, hfb, hX, hY⟩ :=
        concatMap_split l a' y Y ha₂
      refine ⟨a :: l₁, b, l₂, Xa, Ya, by rw [hl]; rfl, hfb, ?_, hY⟩
      rw [ha₁, hX]
      show f a ++ (concatMap f l₁ ++ Xa) = (f a ++ concatMap f l₁) ++ Xa
      rw [List.append_assoc]
    · cases c' with
      | nil =>
        obtain ⟨l₁, b, l₂, Xa, Ya, hl, hfb, hX, hY⟩ :=
          concatMap_split l [] y Y (by simpa using hc₂.symm)
        refine ⟨a :: l₁, b, l₂, Xa, Ya, by rw [hl]; rfl, hfb, ?_, hY⟩
        have h0 := hX.symm
        rw [List.append_eq_nil] at h0
        have hfa : f a = X := by simpa using hc₁
        rw [show concatMap f (a :: l₁) = f a ++ concatMap f l₁ from rfl,
          h0.1, h0.2, hfa]
        simp
      | cons y' rest =>
        injection hc₂ with hy hY
        refine ⟨[], a, l, X, rest, rfl, ?_, by simp [concatMap], hY⟩
        rw [hc₁, hy]

theorem should_display_registered {c : Path} {s : StateManager} {f : Filter}
    (h : should_display c s f = true) : ∃ n, findNode s c = some n := by
  unfold should_display at h
  cases hf : findNode s c with
  | none => rw [hf] at h; exact absurd h (by simp)
  | some n => exact ⟨n, rfl⟩

theorem collectRec_head {s : StateManager} {f : Filter} {srt : SortMode}
    {fuel : Nat} {p : Path} {depth : Nat} {n : FsNode}
    (hf : findNode s p = some n) :
    ∃ rest, collectRec s f srt (fuel + 1) p depth = mkItem n depth :: rest := by
  unfold collectRec
  simp only [hf]
  cases hk : n.kind with
  | file =>
    simp only [hk]
    exact ⟨[], rfl⟩
  | directory ch op =>
    cases op with
    | false =>
      simp only [hk]
      exact ⟨[], rfl⟩
    | true =>
      simp only [hk]
      exact ⟨_, rfl⟩

/-- In any block of the walk started outside the strict descendants of `c`,
an item strictly below `c` can only appear after an item for `c` itself. -/
theorem collect_before {s : StateManager} {f : Filter} {srt : SortMode}
    (hts : TreeState s) :
    ∀ (fuel : Nat) (p : Path) (depth : Nat) (c : Path),
    properUnder c p = false →
    ∀ (X : List ViewItem) (y : ViewItem) (Y : List ViewItem),
    collectRec s f srt fuel p depth = X ++ y :: Y →
    properUnder c y.path = true →
    ∃ j ∈ X, j.path = c
  | 0, p, depth, c, hcp, X, y, Y, hsplit, hy => by
    rw [show collectRec s f srt 0 p depth = [] from rfl] at hsplit
    exact absurd hsplit.symm (by simp)
  | Nat.succ fuel, p, depth, c, hcp, X, y, Y, hsplit, hy => by
    unfold collectRec at hsplit
    cases hf : findNode s p with
    | none =>
      rw [hf] at hsplit
      exact absurd hsplit.symm (by simp)
    | some n =>
      obtain ⟨hpath, hkids⟩ := treeState_node hts hf
      simp only [hf] at hsplit
      have hhead : ∀ (hh : y = mkItem n depth), False := by
        intro hh
        rw [hh, mkItem_path, hpath] at hy
        rw [hy] at hcp
        exact absurd hcp (by simp)
      cases hk : n.kind with
      | file =>
        simp only [hk] at hsplit
        obtain ⟨_, hya, _⟩ := singleton_split hsplit
        exact absurd hya (fun hh => hhead hh)
      | directory ch op =>
        cases op with
        | false =>
          simp only [hk] at hsplit
          obtain ⟨_, hya, _⟩ := singleton_split hsplit
          exact absurd hya (fun hh => hhead hh)
        | true =>
          simp only [hk] at hsplit
          cases X with
          | nil =>
            injection hsplit with h₁ h₂
            exact absurd h₁.symm (fun hh => hhead hh)
          | cons x₀ X' =>
            injection hsplit with h₁ h₂
            by_cases hcpq : c = p
            · refine ⟨x₀, by simp, ?_⟩
              rw [← h₁, mkItem_path, hpath, hcpq]
            · obtain ⟨l₁, a, l₂, Xa, Ya, hl, hfa, hX, hY⟩ :=
                concatMap_split _ X' y Y h₂
              have hamem : a ∈ sortChildren s ch srt := by
                rw [hl]
                simp
              have hach : a ∈ ch := mem_sortBy.mp hamem
              obtain ⟨hdl, hane⟩ := (hkids ch true hk).1 a hach
              by_cases hsd : should_display a s f
              · rw [if_pos hsd] at hfa
                by_cases hac : a = c
                · subst hac
                  obtain ⟨nc, hnc⟩ := should_display_registered hsd
                  cases fuel with
                  | zero =>
                    rw [show collectRec s f srt 0 a (depth + 1) = [] from rfl]
                      at hfa
                    exact absurd hfa.symm (by simp)
                  | succ fuel' =>
                    obtain ⟨rest, hrest⟩ := collectRec_head hnc
                    rw [hrest] at hfa
                    obtain ⟨hnpath, _⟩ := treeState_node hts hnc
                    cases Xa with
                    | nil =>
                      injection hfa with hya _
                      rw [← hya, mkItem_path, hnpath] at hy
                      rw [properUnder_irrefl] at hy
                      exact absurd hy (by simp)
                    | cons j Xa' =>
                      injection hfa with hja _
                      refine ⟨j, ?_, by rw [← hja, mkItem_path, hnpath]⟩
                      rw [hX]
                      simp
                · have hcaf : properUnder c a = false := by
                    cases hca : properUnder c a with
                    | false => rfl
                    | true =>
                      obtain ⟨x, hax⟩ := child_shape hdl hane
                      have hclen : c.length ≤ p.length := by
                        have hlen := (properUnder_iff.mp hca).1
                        rw [hax] at hlen
                        simp only [List.length_append, List.length_cons,
                          List.length_nil] at hlen
                        omega
                      have hupa : under p a = true := by
                        rw [hax]
                        exact under_append p [x]
                      have hucp : under c p = true :=
                        under_of_le (under_of_properUnder hca) hupa hclen
                      rcases Nat.lt_or_ge c.length p.length with hlt | hge
                      · have hcon : properUnder c p = true :=
                          properUnder_iff.mpr ⟨hlt, hucp⟩
                        rw [hcon] at hcp
                        exact absurd hcp (by simp)
                      · exact absurd (under_eq_of_length hucp hge) hcpq
                  obtain ⟨j, hjXa, hjc⟩ :=
                    collect_before hts fuel a (depth + 1) c hcaf Xa y Ya hfa hy
                  refine ⟨j, ?_, hjc⟩
                  rw [hX]
                  simp [hjXa]
              · rw [if_neg hsd] at hfa
                exact absurd hfa.symm (by simp)

theorem nodup_concatMap {f : α → List β} :
    ∀ (l : List α), l.Nodup → (∀ a ∈ l, (f a).Nodup) →
    (∀ a ∈ l, ∀ b ∈ l, a ≠ b → ∀ q ∈ f a, q ∉ f b) →
    (concatMap f l).Nodup
  | [], _, _, _ => by simp [concatMap]
  | a :: l, hnd, hbl, hdisj => by
    rw [show concatMap f (a :: l) = f a ++ concatMap f l from rfl]
    rw [List.nodup_cons] at hnd
    refine List.Nodup.append (hbl a (by simp)) ?_ ?_
    · exact nodup_concatMap l hnd.2 (fun b hb => hbl b (by simp [hb]))
        (fun b hb b' hb' hne q hq => hdisj b (by simp [hb]) b' (by simp [hb']) hne q hq)
    · intro q hqa hqc
      rw [mem_concatMap] at hqc
      obtain ⟨b, hb, hqb⟩ := hqc
      have hab : a ≠ b := fun hc => hnd.1 (hc ▸ hb)
      exact hdisj a (by simp) b (by simp [hb]) hab q hqa hqb

theorem collect_paths_nodup {s : StateManager} {f : Filter} {srt : SortMode}
    (hts : TreeState s) :
    ∀ (fuel : Nat) (p : Path) (depth : Nat),
    (itemPaths (collectRec s f srt fuel p depth)).Nodup
  | 0, p, depth => by simp [collectRec, itemPaths]
  | Nat.succ fuel, p, depth => by
    unfold collectRec
    cases hf : findNode s p with
    | none => simp [itemPaths]
    | some n =>
      obtain ⟨hpath, hkids⟩ := treeState_node hts hf
      cases hk : n.kind with
      | file => simp [hk, itemPaths]
      | directory ch op =>
        cases op with
        | false => simp [hk, itemPaths]
        | true =>
          simp only [hk]
          rw [itemPaths_cons, List.nodup_cons, itemPaths_concatMap]
          constructor
          · intro hmem
            rw [mem_concatMap] at hmem
            obtain ⟨c, hcmem, hq⟩ := hmem
            have hcch : c ∈ ch := mem_sortBy.mp hcmem
            by_cases hsd : should_display c s f
            · rw [if_pos hsd] at hq
              rw [itemPaths, List.mem_map] at hq
              obtain ⟨it, hit, hq'⟩ := hq
              obtain ⟨hdl, hne⟩ := (hkids ch true hk).1 c hcch
              have hpu : properUnder p (mkItem n depth).path = true := by
                rw [← hq']
                exact properUnder_trans_under (properUnder_child hdl hne)
                  (collect_under hts fuel c (depth + 1) it hit)
              rw [mkItem_path, hpath] at hpu
              rw [properUnder_irrefl] at hpu
              exact absurd hpu (by simp)
            · rw [if_neg hsd] at hq
              exact absurd hq (by simp [itemPaths])
          · refine nodup_concatMap _ (nodup_sortBy (hkids ch true hk).2) ?_ ?_
            · intro c hc
              by_cases hsd : should_display c s f
              · rw [if_pos hsd]
                exact collect_paths_nodup hts fuel c (depth + 1)
              · rw [if_neg hsd]
                simp [itemPaths]
            · intro a ha b hb hab q hqa hqb
              have haa : a ∈ ch := mem_sortBy.mp ha
              have hbb : b ∈ ch := mem_sortBy.mp hb
              by_cases hsda : should_display a s f
              · rw [if_pos hsda] at hqa
                by_cases hsdb : should_display b s f
                · rw [if_pos hsdb] at hqb
                  rw [itemPaths, List.mem_map] at hqa hqb
                  obtain ⟨ita, hita, hqa'⟩ := hqa
                  obtain ⟨itb, hitb, hqb'⟩ := hqb
                  obtain ⟨hdla, hnea⟩ := (hkids ch true hk).1 a haa
                  obtain ⟨hdlb, hneb⟩ := (hkids ch true hk).1 b hbb
                  obtain ⟨xa, hxa⟩ := child_shape hdla hnea
                  obtain ⟨xb, hxb⟩ := child_shape hdlb hneb
                  have hua : under a q = true := by
                    rw [← hqa']
                    exact collect_under hts fuel a (depth + 1) ita hita
                  have hub : under b q = true := by
                    rw [← hqb']
                    exact collect_under hts fuel b (depth + 1) itb hitb
                  have hlen : a.length ≤ b.length := by
                    rw [hxa, hxb]
                    simp
                  have hba : under a b = true := under_of_le hua hub hlen
                  have hlen' : b.length ≤ a.length := by
                    rw [hxa, hxb]
                    simp
                  exact hab (under_eq_of_length hba hlen')
                · rw [if_neg hsdb] at hqb
                  exact absurd hqb (by simp [itemPaths])
              · rw [if_neg hsda] at hqa
                exact absurd hqa (by simp [itemPaths])

theorem getElem?_split {l : List α} {i : Nat} {a : α} (h : l[i]? = some a) :
    ∃ X Y, l = X ++ a :: Y ∧ X.length = i := by
  have hlt : i < l.length := getElem?_isSome_lt h
  have hget : l[i] = a := by
    rw [List.getElem?_eq_getElem hlt] at h
    injection h
  refine ⟨l.take i, l.drop (i + 1), ?_, ?_⟩
  · conv_lhs => rw [← List.take_append_drop i l]
    rw [List.drop_eq_getElem_cons hlt, hget]
  · rw [List.length_take]
    exact Nat.min_eq_left (Nat.le_of_lt hlt)

theorem findIdx?_split {pfn : α → Bool} : ∀ (l : List α) (base i : Nat),
    l.findIdx? pfn base = some i →
    ∃ X y Y, l = X ++ y :: Y ∧ base + X.length = i ∧ pfn y = true ∧
      ∀ x ∈ X, pfn x = false
  | [], base, i, h => by simp at h
  | a :: l, base, i, h => by
    rw [List.findIdx?_cons] at h
    by_cases hpa : pfn a
    · rw [if_pos hpa] at h
      injection h with h'
      exact ⟨[], a, l, rfl, by simpa using h', hpa, by simp⟩
    · rw [if_neg hpa] at h
      obtain ⟨X, y, Y, hl, hlen, hy, hX⟩ := findIdx?_split l (base + 1) i h
      refine ⟨a :: X, y, Y, by rw [hl]; rfl, ?_, hy, ?_⟩
      · simp only [List.length_cons]
        omega
      · intro x hx
        rcases List.mem_cons.mp hx with hx | hx
        · rw [hx]
          simpa using hpa
        · exact hX x hx

/-- Core positional fact: when `dd` first appears at position `i` of the
projection, the projection after closing `dd` still shows `dd` at `i`. -/
theorem view_close_keeps_position (s : StateManager) (f : Filter) (srt : SortMode)
    (dd : Path) (X : List ViewItem) (y : ViewItem) (Y : List ViewItem)
    (hts : TreeState s) (hdir : f.directories = false)
    (hsplit : stateToView s f srt = X ++ y :: Y) (hyp : y.path = dd)
    (hX : ∀ x ∈ X, x.path ≠ dd) :
    ((stateToView (set_open s dd false) f srt)[X.length]?).map
      (fun it => it.path) = some dd := by
  have hymem : y ∈ collectRec s f srt (projFuel s) s.root 0 := by
    show y ∈ stateToView s f srt
    rw [hsplit]
    simp
  have hyroot : under s.root dd = true := by
    rw [← hyp]
    exact collect_under hts (projFuel s) s.root 0 y hymem
  have hrootd : properUnder dd s.root = false := not_properUnder_of_under hyroot
  have hXgood : ∀ x ∈ X, (fun q => !properUnder dd q) x.path = true := by
    intro x hxmem
    cases hpu : properUnder dd x.path with
    | false => simp [hpu]
    | true =>
      obtain ⟨X₁, X₂, hXsplit⟩ := List.append_of_mem hxmem
      have hsplit' : stateToView s f srt = X₁ ++ x :: (X₂ ++ y :: Y) := by
        rw [hsplit, hXsplit]
        simp
      obtain ⟨j, hjmem, hjc⟩ := collect_before hts (projFuel s) s.root 0 dd
        hrootd X₁ x (X₂ ++ y :: Y) hsplit' hpu
      have : j ∈ X := by
        rw [hXsplit]
        simp [hjmem]
      exact absurd hjc (hX j this)
  have hfilter : viewPaths (set_open s dd false) f srt =
      (viewPaths s f srt).filter (fun q => !(properUnder dd q)) := by
    show itemPaths (stateToView (set_open s dd false) f srt) = _
    unfold stateToView
    rw [projFuel_set_open]
    exact collect_set_open_filter hts hdir (projFuel s) s.root 0 hrootd
  have hpaths : viewPaths s f srt = itemPaths X ++ dd :: itemPaths Y := by
    show itemPaths (stateToView s f srt) = _
    rw [hsplit, itemPaths_append, itemPaths_cons, hyp]
  have hXfilter : (itemPaths X).filter (fun q => !(properUnder dd q)) =
      itemPaths X := by
    rw [List.filter_eq_self]
    intro q hq
    rw [itemPaths, List.mem_map] at hq
    obtain ⟨x, hxmem, hq'⟩ := hq
    rw [← hq']
    exact hXgood x hxmem
  have hlen : (itemPaths X).length = X.length := by
    simp [itemPaths]
  have hdd : (!properUnder dd dd) = true := by
    simp [properUnder_irrefl]
  have hfinal : viewPaths (set_open s dd false) f srt =
      itemPaths X ++ dd :: (itemPaths Y).filter (fun q => !(properUnder dd q)) := by
    rw [hfilter, hpaths, List.filter_append, hXfilter,
      filter_cons_keep (fun q => !properUnder dd q) dd _ hdd]
  have hidx : (viewPaths (set_open s dd false) f srt)[X.length]? = some dd := by
    rw [hfinal, ← hlen, List.getElem?_append_right (Nat.le_refl _)]
    simp
  show ((stateToView (set_open s dd false) f srt)[X.length]?).map
    (fun it => it.path) = some dd
  rw [← hidx]
  show _ = (viewPaths (set_open s dd false) f srt)[X.length]?
  unfold viewPaths
  rw [List.getElem?_map]

/-- C9 counterexample: with the hide-closed-directories filter enabled,
`close_nearest` on a selected file closes its parent and leaves the
selection at the parent's old index, but the parent has no entry at all in
the resulting projection — the selection does not land on the parent. -/
theorem close_nearest_filter_counterexample :
    close_nearest
      ⟨[([r0], ⟨[r0], FsNodeKind.directory [[r0, a0]] true⟩),
        ([r0, a0], ⟨[r0, a0], FsNodeKind.directory [[r0, a0, b0]] true⟩),
        ([r0, a0, b0], ⟨[r0, a0, b0], FsNodeKind.file⟩)], [r0]⟩
      (stateToView
        ⟨[([r0], ⟨[r0], FsNodeKind.directory [[r0, a0]] true⟩),
          ([r0, a0], ⟨[r0, a0], FsNodeKind.directory [[r0, a0, b0]] true⟩),
          ([r0, a0, b0], ⟨[r0, a0, b0], FsNodeKind.file⟩)], [r0]⟩
        ⟨true, false, false⟩ SortMode.alphabetical)
      (some 2) =
      (set_open
        ⟨[([r0], ⟨[r0], FsNodeKind.directory [[r0, a0]] true⟩),
          ([r0, a0], ⟨[r0, a0], FsNodeKind.directory [[r0, a0, b0]] true⟩),
          ([r0, a0, b0], ⟨[r0, a0, b0], FsNodeKind.file⟩)], [r0]⟩
        [r0, a0] false, some 1) ∧
    [r0, a0] ∉ viewPaths
      (set_open
        ⟨[([r0], ⟨[r0], FsNodeKind.directory [[r0, a0]] true⟩),
          ([r0, a0], ⟨[r0, a0], FsNodeKind.directory [[r0, a0, b0]] true⟩),
          ([r0, a0, b0], ⟨[r0, a0, b0], FsNodeKind.file⟩)], [r0]⟩
        [r0, a0] false)
      ⟨true, false, false⟩ SortMode.alphabetical := by
  refine ⟨by decide, by decide⟩

/-- C9 as amended: with the directory filter disabled and the view cache
being the current projection, `close_nearest` on a selection resolving to
`item` closes a selected open directory in place with the selection staying
on its entry, which keeps its display index in the new projection; for any
other item whose parent occurs in the view, it closes the parent and moves
the selection to the parent's view index, at which the parent indeed
appears in the resulting projection. -/
theorem close_nearest_semantics (s : StateManager) (f : Filter)
    (srt : SortMode) (i : Nat) (item : ViewItem) (hts : TreeState s)
    (hdir : f.directories = false)
    (hit : (stateToView s f srt)[i]? = some item) :
    (item.kind = ViewItemKind.directory true →
      close_nearest s (stateToView s f srt) (some i) =
        (set_open s item.path false, some i) ∧
      ((stateToView (set_open s item.path false) f srt)[i]?).map
        (fun it => it.path) = some item.path) ∧
    (item.kind ≠ ViewItemKind.directory true →
      ∀ pp idx, pathParent item.path = some pp →
      (stateToView s f srt).findIdx?
        (fun it => decide (it.path = pp)) = some idx →
      close_nearest s (stateToView s f srt) (some i) =
        (set_open s pp false, some idx) ∧
      ((stateToView (set_open s pp false) f srt)[idx]?).map
        (fun it => it.path) = some pp) := by
  constructor
  · intro hk
    constructor
    · unfold close_nearest
      simp only [hit, hk]
    · obtain ⟨X, Y, hsplit, hlen⟩ := getElem?_split hit
      have hnd : (itemPaths (stateToView s f srt)).Nodup :=
        collect_paths_nodup hts (projFuel s) s.root 0
      rw [hsplit, itemPaths_append, itemPaths_cons] at hnd
      have hdisj := (List.nodup_append.mp hnd).2.2
      have hX : ∀ x ∈ X, x.path ≠ item.path := by
        intro x hx hc
        refine hdisj ?_ (show item.path ∈ item.path :: itemPaths Y by simp)
        rw [← hc]
        exact List.mem_map_of_mem _ hx
      have hpos := view_close_keeps_position s f srt item.path X item Y hts
        hdir hsplit rfl hX
      rw [hlen] at hpos
      exact hpos
  · intro hk pp idx hpp hfind
    have hcn : close_nearest s (stateToView s f srt) (some i) =
        (set_open s pp false, some idx) := by
      unfold close_nearest
      simp only [hit]
      cases hkind : item.kind with
      | file => simp only [hpp, hfind]
      | directory b =>
        cases b with
        | true => exact absurd hkind hk
        | false => simp only [hpp, hfind]
    refine ⟨hcn, ?_⟩
    obtain ⟨X, y, Y, hsplit, hlen, hy, hX⟩ :=
      findIdx?_split (stateToView s f srt) 0 idx hfind
    have hy' : y.path = pp := of_decide_eq_true hy
    have hX' : ∀ x ∈ X, x.path ≠ pp := fun x hx => of_decide_eq_false (hX x hx)
    have hpos := view_close_keeps_position s f srt pp X y Y hts hdir hsplit
      hy' hX'
    rw [show X.length = idx from by omega] at hpos
    exact hpos

/-- Witness for C9's amended statement: on the three-node tree with no
filters, closing the selected file's parent moves the selection to index 1,
where the parent sits in the new projection. -/
theorem close_nearest_semantics_witness :
    close_nearest
      ⟨[([r0], ⟨[r0], FsNodeKind.directory [[r0, a0]] true⟩),
        ([r0, a0], ⟨[r0, a0], FsNodeKind.directory [[r0, a0, b0]] true⟩),
        ([r0, a0, b0], ⟨[r0, a0, b0], FsNodeKind.file⟩)], [r0]⟩
      (stateToView
        ⟨[([r0], ⟨[r0], FsNodeKind.directory [[r0, a0]] true⟩),
          ([r0, a0], ⟨[r0, a0], FsNodeKind.directory [[r0, a0, b0]] true⟩),
          ([r0, a0, b0], ⟨[r0, a0, b0], FsNodeKind.file⟩)], [r0]⟩
        ⟨false, false, false⟩ SortMode.alphabetical)
      (some 2) =
      (set_open
        ⟨[([r0], ⟨[r0], FsNodeKind.directory [[r0, a0]] true⟩),
          ([r0, a0], ⟨[r0, a0], FsNodeKind.directory [[r0, a0, b0]] true⟩),
          ([r0, a0, b0], ⟨[r0, a0, b0], FsNodeKind.file⟩)], [r0]⟩
        [r0, a0] false, some 1) ∧
    ((stateToView
        (set_open
          ⟨[([r0], ⟨[r0], FsNodeKind.directory [[r0, a0]] true⟩),
            ([r0, a0], ⟨[r0, a0], FsNodeKind.directory [[r0, a0, b0]] true⟩),
            ([r0, a0, b0], ⟨[r0, a0, b0], FsNodeKind.file⟩)], [r0]⟩
          [r0, a0] false)
        ⟨false, false, false⟩ SortMode.alphabetical)[1]?).map
      (fun it => it.path) = some [r0, a0] :=
  (close_nearest_semantics
      ⟨[([r0], ⟨[r0], FsNodeKind.directory [[r0, a0]] true⟩),
        ([r0, a0], ⟨[r0, a0], FsNodeKind.directory [[r0, a0, b0]] true⟩),
        ([r0, a0, b0], ⟨[r0, a0, b0], FsNodeKind.file⟩)], [r0]⟩
      ⟨false, false, false⟩ SortMode.alphabetical 2
      ⟨b0, [r0, a0, b0], ViewItemKind.file, 2⟩
      (treeState_of_bool (by decide)) rfl (by decide)).2
    (by decide) [r0, a0] 1 (by decide) (by decide)

/-! ## The unfiltered alphabetical projection is the spec's pre-order (C3) -/

theorem allReg_of_bool {s : StateManager} (h : allRegB s = true) :
    ∀ p, Reaches s p → (findNode s p).isSome = true := by
  intro p hr
  unfold allRegB at h
  rw [Bool.and_eq_true] at h
  induction hr with
  | root => exact h.1
  | child p c n ch op hr hf hk hc ih =>
    have h₂ := h.2
    rw [List.all_eq_true] at h₂
    cases hfe : findEntry s.fs_nodes p with
    | none =>
      rw [show findNode s p = (findEntry s.fs_nodes p).map (fun e => e.2)
        from rfl, hfe] at hf
      exact absurd hf (by simp)
    | some e =>
      have hmem : e ∈ s.fs_nodes := List.mem_of_find?_eq_some hfe
      have hen : e.2 = n := by
        rw [show findNode s p = (findEntry s.fs_nodes p).map (fun e => e.2)
          from rfl, hfe] at hf
        injection hf
      have he := h₂ e hmem
      simp only [hen, hk] at he
      rw [List.all_eq_true] at he
      exact he c hc

theorem should_display_no_filter {s : StateManager} {c : Path} :
    should_display c s ⟨false, false, false⟩ = (findNode s c).isSome := by
  unfold should_display
  cases hf : findNode s c with
  | none => rfl
  | some n =>
    cases hk : n.kind with
    | file => simp [hk]
    | directory ch op => simp [hk]

theorem childLe_alpha {s : StateManager} {a b : Path} {na nb : FsNode}
    (hfa : findNode s a = some na) (hfb : findNode s b = some nb)
    (hpa : na.path = a) (hpb : nb.path = b) :
    childLe s SortMode.alphabetical a b = pathLe a b := by
  unfold childLe cmpChild pathLe
  simp only [hfa, hfb, hpa, hpb]

theorem collect_eq_spec {s : StateManager} (hts : TreeState s)
    (hreg : ∀ q, Reaches s q → (findNode s q).isSome = true) :
    ∀ (fuel : Nat) (p : Path) (depth : Nat), Reaches s p →
    collectRec s ⟨false, false, false⟩ SortMode.alphabetical fuel p depth =
      specPreorder s fuel p depth
  | 0, _, _, _ => rfl
  | Nat.succ fuel, p, depth, hr => by
    unfold collectRec specPreorder
    cases hf : findNode s p with
    | none => rfl
    | some n =>
      cases hk : n.kind with
      | file => simp only [hk]
      | directory ch op =>
        cases op with
        | false => simp only [hk]
        | true =>
          simp only [hk]
          have hsort : sortChildren s ch SortMode.alphabetical =
              sortBy pathLe ch := by
            refine sortBy_congr _ _ ch ?_
            intro a ha b hb
            have hra : Reaches s a := Reaches.child p a n ch true hr hf hk ha
            have hrb : Reaches s b := Reaches.child p b n ch true hr hf hk hb
            obtain ⟨na, hna⟩ := Option.isSome_iff_exists.mp (hreg a hra)
            obtain ⟨nb, hnb⟩ := Option.isSome_iff_exists.mp (hreg b hrb)
            exact childLe_alpha hna hnb (treeState_node hts hna).1
              (treeState_node hts hnb).1
          rw [hsort]
          congr 1
          refine concatMap_congr _ ?_
          intro c hcmem
          have hc : c ∈ ch := mem_sortBy.mp hcmem
          have hrc : Reaches s c := Reaches.child p c n ch true hr hf hk hc
          rw [should_display_no_filter, hreg c hrc, if_pos rfl]
          exact collect_eq_spec hts hreg fuel c (depth + 1) hrc

/-- C3: for a tree state whose reachable nodes are all registered, with all
three filter toggles disabled and alphabetical sort, the projection is
exactly the spec's pre-order traversal that emits every node, descends only
into open directories, and visits children in ascending path order. -/
theorem projection_alphabetical_is_preorder (s : StateManager)
    (hts : TreeState s)
    (hreg : ∀ q, Reaches s q → (findNode s q).isSome = true) :
    stateToView s ⟨false, false, false⟩ SortMode.alphabetical =
      specPreorder s (projFuel s) s.root 0 :=
  collect_eq_spec hts hreg (projFuel s) s.root 0 Reaches.root

/-- Witness for C3 on the three-node tree. -/
theorem projection_alphabetical_is_preorder_witness :
    stateToView
      ⟨[([r0], ⟨[r0], FsNodeKind.directory [[r0, a0]] true⟩),
        ([r0, a0], ⟨[r0, a0], FsNodeKind.directory [[r0, a0, b0]] true⟩),
        ([r0, a0, b0], ⟨[r0, a0, b0], FsNodeKind.file⟩)], [r0]⟩
      ⟨false, false, false⟩ SortMode.alphabetical =
      specPreorder
        ⟨[([r0], ⟨[r0], FsNodeKind.directory [[r0, a0]] true⟩),
          ([r0, a0], ⟨[r0, a0], FsNodeKind.directory [[r0, a0, b0]] true⟩),
          ([r0, a0, b0], ⟨[r0, a0, b0], FsNodeKind.file⟩)], [r0]⟩
        (projFuel
          ⟨[([r0], ⟨[r0], FsNodeKind.directory [[r0, a0]] true⟩),
            ([r0, a0], ⟨[r0, a0], FsNodeKind.directory [[r0, a0, b0]] true⟩),
            ([r0, a0, b0], ⟨[r0, a0, b0], FsNodeKind.file⟩)], [r0]⟩)
        [r0] 0 :=
  projection_alphabetical_is_preorder
    ⟨[([r0], ⟨[r0], FsNodeKind.directory [[r0, a0]] true⟩),
      ([r0, a0], ⟨[r0, a0], FsNodeKind.directory [[r0, a0, b0]] true⟩),
      ([r0, a0, b0], ⟨[r0, a0, b0], FsNodeKind.file⟩)], [r0]⟩
    (treeState_of_bool (by decide)) (allReg_of_bool (by decide))

end Lsn
